import Mathlib

/-!
Verification of the structural-fact extraction engine of the `ai-spec-gen`
repository, centred on the two stateful reconstructors of
`src/plugins/laravel/parser.py`:

* the route-table reconstructor (`parse_routes`, `_parse_route_file`,
  `_parse_routes_with_groups`, `_normalize_route_action`), and
* the schema reconstructor (`parse_migrations`, `_parse_migration_file`),

together with the structured-generation helper `AIBackend.generate_json`
of `src/core/ai_backend.py` and the file-decoding behaviour of
`_parse_migration_file`.

The Python code scans raw text with regular expressions.  The shallow
embedding represents a document by the sequence of syntactic constructs the
regexes recognise (one inductive constructor per recognized shape), and
translates, construct by construct, the exact Python post-processing applied
to each match: string strip/split/join/upper-case helpers are re-implemented
on `List Char`, ordered dictionaries are association lists with Python-dict
semantics (assignment overwrites in place, `pop` removes), and the folds are
the same folds the source performs.
-/

namespace AiSpecGen

/-! ### Python-style string helpers (used by the parser's post-processing) -/

/-- Characters treated as whitespace by Python's `str.strip()` (the subset
relevant to the scanned documents). -/
def isPySpace (c : Char) : Bool :=
  c = ' ' || c = '\t' || c = '\n' || c = '\r'

/-- Strip characters satisfying `p` from both ends of a character list, as
Python's `str.strip` family does. -/
def charsStripBy (p : Char → Bool) (l : List Char) : List Char :=
  ((l.dropWhile p).reverse.dropWhile p).reverse

/-- Python `s.strip()`. -/
def pyStrip (s : String) : String := ⟨charsStripBy isPySpace s.data⟩

/-- A single or double quotation mark (the argument of the source's
`strip(quote-characters)` calls); 39 is the code of the single quote. -/
def isQuoteChar (c : Char) : Bool := c = '"' || c.toNat = 39

/-- Python `s.strip(quote-characters)` as applied at
`src/plugins/laravel/parser.py` to captured middleware and prefix text. -/
def pyStripQuotes (s : String) : String := ⟨charsStripBy isQuoteChar s.data⟩

/-- Python `s.lstrip(slash)`. -/
def pyLstripSlash (s : String) : String := ⟨s.data.dropWhile (· = '/')⟩

/-- Python `s.rstrip(slash)`. -/
def pyRstripSlash (s : String) : String := ⟨(s.data.reverse.dropWhile (· = '/')).reverse⟩

/-- Upper-casing of an ASCII letter, as Python `str.upper` acts on the
captured HTTP verbs (`get`, `post`, ...). -/
def asciiUpChar (c : Char) : Char :=
  if 97 ≤ c.toNat ∧ c.toNat ≤ 122 then Char.ofNat (c.toNat - 32) else c

/-- Python `s.upper()` restricted to ASCII input. -/
def pyUpper (s : String) : String := ⟨s.data.map asciiUpChar⟩

/-- Python `s.split(sep)` for a one-character separator, on character lists:
splitting the empty string yields one empty field, and consecutive separators
yield empty fields. -/
def splitOnChar (c : Char) : List Char → List (List Char)
  | [] => [[]]
  | x :: rest =>
      if x = c then [] :: splitOnChar c rest
      else
        match splitOnChar c rest with
        | [] => [[x]]
        | h :: t => (x :: h) :: t

/-- Python `s.split(sep)` for a one-character separator. -/
def pySplit (c : Char) (s : String) : List String :=
  (splitOnChar c s.data).map (fun cs => ⟨cs⟩)

/-- The middleware-list post-processing the source applies to every captured
middleware argument text:
`[m.strip().strip(quotes) for m in raw.split(comma) if m.strip()]`. -/
def parseMwList (raw : String) : List String :=
  (pySplit ',' raw).filterMap (fun m =>
    if pyStrip m = "" then none else some (pyStripQuotes (pyStrip m)))

/-! ### Route model

A route document is represented by the sequence of matches of the three
regular expressions of `_parse_route_file` / `_parse_routes_with_groups`:

* `RouteItem.decl` — one match of the ungrouped pattern
  `Route::(verb)(uri, action)` optionally followed by `->middleware(...)`
  (`mwRaw` is the captured middleware argument text, `""` when absent);
* `RouteItem.mwDecl` — one match of `Route::middleware(...)->verb(uri, action)`;
* `RouteItem.group` — one match of the group pattern
  `Route::middleware(mwRaw) prefix(pfxRaw) group(function () ... )`,
  whose body contains further declaration matches.

Because the ungrouped pattern is run by `finditer` over the *entire* document
text, it also matches every declaration inside a group body; `routeScanMatches`
reflects this by listing group-body declarations as matches of the ungrouped
scan as well. -/

/-- The recognized shapes of a route action expression, mirroring the
precedence of `_normalize_route_action`: a `[Cls::class, method-name]` tuple,
a `Cls@method` string literal, or any other raw expression text. -/
inductive RawAction
  | classTuple (cls meth : String)
  | atString (s : String)
  | other (raw : String)
deriving DecidableEq

/-- `_normalize_route_action` (parser.py lines 420-433). -/
def normalize_route_action : RawAction → String
  | .classTuple c m => c ++ "@" ++ m
  | .atString s => s
  | .other raw => raw

/-- One match of the ungrouped route pattern: captured verb, URI, action
expression and trailing middleware argument text (`""` when the optional
`->middleware(...)` chain is absent, mirroring `match.group(4) or ''`). -/
structure RouteMatch where
  verb : String
  uri : String
  action : RawAction
  mwRaw : String
deriving DecidableEq

/-- One reconstructed route, the dictionary appended by the source:
`{method, uri, action, middleware}`. -/
structure Route where
  method : String
  uri : String
  action : String
  middleware : List String
deriving DecidableEq

/-- One recognized construct of a route document (see module comment). -/
inductive RouteItem
  | decl (m : RouteMatch)
  | mwDecl (mwRaw verb uri : String) (action : RawAction)
  | group (mwRaw pfxRaw : String) (body : List RouteMatch)
deriving DecidableEq

/-- The matches the ungrouped route pattern finds in one construct of the
document: a plain declaration is one match, and every declaration inside a
group body is also a match, because the scan runs over the whole text. -/
def routeScanMatches : RouteItem → List RouteMatch
  | .decl m => [m]
  | .mwDecl _ _ _ _ => []
  | .group _ _ body => body

/-- The route built from one ungrouped match (parser.py lines 348-361). -/
def mkPlainRoute (m : RouteMatch) : Route :=
  { method := pyUpper m.verb
    uri := m.uri
    action := normalize_route_action m.action
    middleware := parseMwList m.mwRaw }

/-- The routes built from one construct by the
`Route::middleware(...)->verb(...)` scan (parser.py lines 363-377). -/
def mwScanRoutes : RouteItem → List Route
  | .mwDecl mwRaw verb uri action =>
      [{ method := pyUpper verb
         uri := uri
         action := normalize_route_action action
         middleware := parseMwList mwRaw }]
  | _ => []

/-- `_parse_route_file` (parser.py lines 338-379): all matches of the
ungrouped pattern over the whole document, then all matches of the
middleware-first pattern. -/
def parse_route_file (items : List RouteItem) : List Route :=
  (items.flatMap routeScanMatches).map mkPlainRoute ++ items.flatMap mwScanRoutes

/-- The URI-join of `_parse_routes_with_groups` (parser.py lines 402-403):
`if prefix: uri = prefix.rstrip(slash) + slash + uri.lstrip(slash)`. -/
def joinGroupUri (pfx uri : String) : String :=
  if pfx ≠ "" then pyRstripSlash pfx ++ "/" ++ pyLstripSlash uri else uri

/-- The flattening of one declaration found inside a group body
(parser.py lines 399-416): the group prefix is joined onto the URI, and the
group's middleware list is extended with the declaration's own. -/
def flattenGroupMatch (mws : List String) (pfx : String) (m : RouteMatch) : Route :=
  { method := pyUpper m.verb
    uri := joinGroupUri pfx m.uri
    action := normalize_route_action m.action
    middleware := mws ++ parseMwList m.mwRaw }

/-- `_parse_routes_with_groups` (parser.py lines 381-418). -/
def parse_routes_with_groups (items : List RouteItem) : List Route :=
  items.flatMap (fun it =>
    match it with
    | .group mwRaw pfxRaw body =>
        body.map (flattenGroupMatch (parseMwList mwRaw) (pyStripQuotes (pyStrip pfxRaw)))
    | _ => [])

/-- The per-file composition in `parse_routes` (parser.py lines 326-334):
the ungrouped results followed by the grouped results. -/
def parseRoutesDoc (items : List RouteItem) : List Route :=
  parse_route_file items ++ parse_routes_with_groups items

/-! ### Concrete route documents for the end-to-end scenario -/

/-- The ungrouped declaration `Route::get(/health, [HealthController::class, check])`. -/
def healthMatch : RouteMatch := ⟨"get", "/health", .classTuple "HealthController" "check", ""⟩

/-- The declaration `Route::get(/users, [UserController::class, index])` inside
the group body. -/
def usersMatch : RouteMatch := ⟨"get", "/users", .classTuple "UserController" "index", ""⟩

/-- The scenario document: one ungrouped declaration and one group block whose
captured middleware argument is the quoted token `auth` and whose captured
prefix argument is the quoted token `api`. -/
def c2Doc : List RouteItem :=
  [.decl healthMatch, .group "\"auth\"" "\"api\"" [usersMatch]]

/-! ### Migration model

A migration document is a text file; `_parse_migration_file` (parser.py lines
498-581) first restricts it to the slice between the first occurrence of
`function up` and the following occurrence of `function down` when both are
present, then extracts every `Schema::create` / `Schema::table` block, and
scans each block body with one regex per recognized operation shape.  The
embedding represents a block body by the list of statements the regexes
recognise (`MigStmt`), and reproduces, scan by scan and in the source's scan
order, the operations each statement contributes. -/

/-- Whether a table-method name belongs to the source's index/constraint skip
set `{index, unique, primary, foreign, fullText, spatialIndex}` (parser.py
line 526). -/
def isSkippedColType (ty : String) : Prop :=
  ty = "index" ∨ ty = "unique" ∨ ty = "primary" ∨ ty = "foreign" ∨
    ty = "fullText" ∨ ty = "spatialIndex"

instance (ty : String) : Decidable (isSkippedColType ty) := by
  unfold isSkippedColType; infer_instance

/-- `add` or `drop`, the `action` key of the operation dictionaries yielded by
`_parse_migration_file`. -/
inductive MigAction
  | add
  | drop
deriving DecidableEq

/-- One operation dictionary yielded by `_parse_migration_file`: keys
`action`, `name`, `type`, and for explicit foreign keys also `references`,
`on`, `on_delete`, `on_update` (absent keys are `none`, as `op.get` yields
`None`). -/
structure MigOp where
  action : MigAction
  name : String
  type : String
  references : Option String := none
  onTable : Option String := none
  on_delete : Option String := none
  on_update : Option String := none
deriving DecidableEq

/-- One statement of a block body, as the regexes of `_parse_migration_file`
recognise it:

* `typedCol ty name` — `table.ty(name-string, ...)` with a quoted first
  argument (and `ty` none of the id/foreign-id forms below);
* `idCol kind name` — `table.kind()` or `table.kind(name-string)` for `kind`
  one of `id`, `bigIncrements`, `increments`;
* `timestampsCall` / `softDeletesCall` — the two convenience shorthands,
  detected by substring containment over the body;
* `foreignIdCol name` — `table.foreignId(name-string)` with a chained
  constraint call;
* `indexDecl kind name` — a single-column `table.index/unique/primary(name)`;
* `foreignDecl col refs onT onDel onUpd` — an explicit
  `table.foreign(col)` fluent chain with its captured options;
* `dropCol name` — `dropColumn(name-string)`;
* `dropCols names` — `dropColumn([name-strings])`. -/
inductive MigStmt
  | typedCol (ty name : String)
  | idCol (kind : String) (name : Option String)
  | timestampsCall
  | softDeletesCall
  | foreignIdCol (name : String)
  | indexDecl (kind name : String)
  | foreignDecl (col : String) (refs onT onDel onUpd : Option String)
  | dropCol (name : String)
  | dropCols (names : List String)
deriving DecidableEq

/-- The matches the typed-column regex `table.(word)(quoted-name` (parser.py
lines 523-529) finds in one statement.  It also matches an id/increments form
with an explicit quoted name, a `foreignId` declaration, and a single-column
`dropColumn` (whose method name is not in the skip set, so it contributes an
`add` whose type is the literal text `dropColumn`); index and foreign
declarations match but are skipped. -/
def typedColScan : MigStmt → List MigOp
  | .typedCol ty name =>
      if isSkippedColType ty then [] else [{ action := .add, name := name, type := ty }]
  | .idCol kind (some name) => [{ action := .add, name := name, type := kind }]
  | .foreignIdCol name => [{ action := .add, name := name, type := "foreignId" }]
  | .dropCol name => [{ action := .add, name := name, type := "dropColumn" }]
  | _ => []

/-- The matches of the id/increments regex (parser.py lines 532-535); a
missing name defaults to `id`. -/
def idColScan : MigStmt → List MigOp
  | .idCol kind name => [{ action := .add, name := name.getD "id", type := kind }]
  | _ => []

/-- The matches of the `foreignId` regex (parser.py lines 545-547). -/
def foreignIdScan : MigStmt → List MigOp
  | .foreignIdCol name => [{ action := .add, name := name, type := "foreignId" }]
  | _ => []

/-- The matches of the single-column index/unique/primary regex (parser.py
lines 550-551). -/
def indexScan : MigStmt → List MigOp
  | .indexDecl kind name => [{ action := .add, name := name, type := kind }]
  | _ => []

/-- The matches of the explicit foreign-key regex (parser.py lines 554-569). -/
def foreignScan : MigStmt → List MigOp
  | .foreignDecl col refs onT onDel onUpd =>
      [{ action := .add, name := col, type := "foreign",
         references := refs, onTable := onT, on_delete := onDel, on_update := onUpd }]
  | _ => []

/-- The matches of the single-column `dropColumn` regex (parser.py lines
572-573). -/
def dropSingleScan : MigStmt → List MigOp
  | .dropCol name => [{ action := .drop, name := name, type := "drop" }]
  | _ => []

/-- The matches of the array `dropColumn` regex (parser.py lines 576-579),
one `drop` per listed name. -/
def dropArrScan : MigStmt → List MigOp
  | .dropCols names => names.map (fun n => { action := .drop, name := n, type := "drop" })
  | _ => []

/-- The operation list built for one block body: the source appends the
matches of each scan in turn, each scan running over the whole body
(parser.py lines 520-579).  The timestamps/soft-delete shorthands are
substring checks over the body, contributing their fixed columns once. -/
def extract_ops (stmts : List MigStmt) : List MigOp :=
  stmts.flatMap typedColScan
    ++ stmts.flatMap idColScan
    ++ (if stmts.any (fun s => s = MigStmt.timestampsCall) then
          [{ action := .add, name := "created_at", type := "timestamp" },
           { action := .add, name := "updated_at", type := "timestamp" }]
        else [])
    ++ (if stmts.any (fun s => s = MigStmt.softDeletesCall) then
          [{ action := .add, name := "deleted_at", type := "timestamp" }]
        else [])
    ++ stmts.flatMap foreignIdScan
    ++ stmts.flatMap indexScan
    ++ stmts.flatMap foreignScan
    ++ stmts.flatMap dropSingleScan
    ++ stmts.flatMap dropArrScan

/-- One `Schema::create` / `Schema::table` block: the captured action word,
the table name, and the body statements. -/
structure MigBlock where
  kind : String
  table : String
  stmts : List MigStmt
deriving DecidableEq

/-- The sectioning of a migration document: either no apply/revert separation
(`whole`, the document is processed in full), or a document containing both a
`function up` and a later `function down` marker, whose blocks fall before
the up marker (`pre`), between the two markers (`upBlocks`), or after the
down marker (`downBlocks`).  The source keeps only the slice between the two
markers (parser.py lines 503-507). -/
inductive MigContent
  | whole (blocks : List MigBlock)
  | sections (pre upBlocks downBlocks : List MigBlock)
deriving DecidableEq

/-- One migration document: its file name and its sectioned content. -/
structure MigFile where
  name : String
  content : MigContent
deriving DecidableEq

/-- The blocks `_parse_migration_file` scans after the apply-section
restriction. -/
def selectBlocks : MigContent → List MigBlock
  | .whole bs => bs
  | .sections _ ub _ => ub

/-- `_parse_migration_file` (parser.py lines 498-581): the sequence of
`(table-name, operations)` pairs yielded for one document. -/
def parse_migration_file (f : MigFile) : List (String × List MigOp) :=
  (selectBlocks f.content).map (fun b => (b.table, extract_ops b.stmts))

/-! ### Association lists with Python-dict semantics -/

/-- First-match lookup in an association list (Python `d.get(k)` /
`k in d`). -/
def alookup (m : List (String × α)) (k : String) : Option α :=
  match m with
  | [] => none
  | p :: rest => if p.1 = k then some p.2 else alookup rest k

/-- Assignment to an existing key: the value is overwritten in place, the
key's position is preserved (Python `d[k] = v` for a present key). -/
def alSet (m : List (String × α)) (k : String) (v : α) : List (String × α) :=
  m.map (fun p => if p.1 = k then (k, v) else p)

/-- Python `d.setdefault(k, d0)`: insert `(k, d0)` at the end when the key is
absent, otherwise leave the dictionary unchanged. -/
def alSetdefault (m : List (String × α)) (k : String) (d0 : α) : List (String × α) :=
  if (alookup m k).isSome then m else m ++ [(k, d0)]

/-- Python dict assignment `d[k] = v`: overwrite in place if present,
otherwise append at the end. -/
def dictInsert (m : List (String × String)) (k v : String) : List (String × String) :=
  if (alookup m k).isSome then alSet m k v else m ++ [(k, v)]

/-- Python `d.pop(k, None)`: remove the key if present, no-op otherwise. -/
def dictPop : List (String × String) → String → List (String × String)
  | [], _ => []
  | p :: rest, k => if p.1 = k then dictPop rest k else p :: dictPop rest k

/-! ### The schema fold (`parse_migrations`, parser.py lines 435-496) -/

/-- One entry of a table's `indexes` list: `{column, type}`. -/
structure IdxRec where
  column : String
  type : String
deriving DecidableEq

/-- One entry of a table's `foreign_keys` list. -/
structure FkRec where
  column : String
  references : Option String
  onTable : Option String
  on_delete : Option String
  on_update : Option String
deriving DecidableEq

/-- One entry of a table's emitted `columns` list: `{name, type}`. -/
structure ColRec where
  name : String
  type : String
deriving DecidableEq

/-- One emitted table dictionary of `parse_migrations`. -/
structure TableOut where
  table_name : String
  columns : List ColRec
  files : List String
  indexes : List IdxRec
  foreign_keys : List FkRec
deriving DecidableEq

/-- The three per-table accumulators mutated while applying one block's
operations: the ordered column map, the index list and the foreign-key
list. -/
structure SchemaAcc where
  schema : List (String × String)
  idxs : List IdxRec
  fks : List FkRec
deriving DecidableEq

/-- The application of one operation (parser.py lines 463-480): an `add`
whose type is `index`/`unique`/`primary` appends an index record, an `add` of
type `foreign` appends a foreign-key record, any other `add` assigns the
column's type in the ordered column map, and a `drop` pops the column. -/
def applyOp (acc : SchemaAcc) (op : MigOp) : SchemaAcc :=
  match op.action with
  | .add =>
      if op.type = "index" ∨ op.type = "unique" ∨ op.type = "primary" then
        { acc with idxs := acc.idxs ++ [⟨op.name, op.type⟩] }
      else if op.type = "foreign" then
        { acc with fks := acc.fks ++
            [⟨op.name, op.references, op.onTable, op.on_delete, op.on_update⟩] }
      else
        { acc with schema := dictInsert acc.schema op.name op.type }
  | .drop => { acc with schema := dictPop acc.schema op.name }

/-- The accumulator state of `parse_migrations`: the four dictionaries
`table_schemas`, `table_indexes`, `table_fks`, `table_files`, all keyed by
table name. -/
structure MigState where
  table_schemas : List (String × List (String × String))
  table_indexes : List (String × List IdxRec)
  table_fks : List (String × List FkRec)
  table_files : List (String × List String)
deriving DecidableEq

/-- The empty initial state. -/
def initMigState : MigState := ⟨[], [], [], []⟩

/-- One `(file-name, table-name, operations)` triple processed by the loop
body of `parse_migrations`. -/
structure MigEvent where
  fname : String
  table : String
  ops : List MigOp
deriving DecidableEq

/-- The loop body of `parse_migrations` (parser.py lines 452-480): skip an
empty table name; record the file name once; `setdefault` the three
per-table accumulators; apply the block's operations; store the results. -/
def processEvent (s : MigState) (e : MigEvent) : MigState :=
  if e.table = "" then s
  else
    let files0 := alSetdefault s.table_files e.table []
    let fl := (alookup files0 e.table).getD []
    let files1 := if e.fname ∈ fl then files0 else alSet files0 e.table (fl ++ [e.fname])
    let schemas0 := alSetdefault s.table_schemas e.table []
    let idxs0 := alSetdefault s.table_indexes e.table []
    let fks0 := alSetdefault s.table_fks e.table []
    let acc := e.ops.foldl applyOp
      ⟨(alookup schemas0 e.table).getD [], (alookup idxs0 e.table).getD [],
        (alookup fks0 e.table).getD []⟩
    { table_files := files1
      table_schemas := alSet schemas0 e.table acc.schema
      table_indexes := alSet idxs0 e.table acc.idxs
      table_fks := alSet fks0 e.table acc.fks }

/-- The events one document contributes, in yield order. -/
def fileEvents (f : MigFile) : List MigEvent :=
  (parse_migration_file f).map (fun p => ⟨f.name, p.1, p.2⟩)

/-- The inner loop of `parse_migrations`: process every block one document
yields. -/
def processFile (s : MigState) (f : MigFile) : MigState :=
  (fileEvents f).foldl processEvent s

/-- The state after the double loop of `parse_migrations` over the ordered
document list (the source processes `sorted(migrations_dir.glob(...))`; the
embedding takes the ordered sequence as input). -/
def migState (files : List MigFile) : MigState :=
  files.foldl processFile initMigState

/-- The ordering of the final `result.sort(key=table_name)`. -/
def tblLe (a b : TableOut) : Prop := a.table_name ≤ b.table_name

instance : DecidableRel tblLe := fun a b =>
  inferInstanceAs (Decidable (a.table_name ≤ b.table_name))

instance : IsTotal TableOut tblLe := ⟨fun a b => le_total a.table_name b.table_name⟩

instance : IsTrans TableOut tblLe := ⟨fun _ _ _ h1 h2 => le_trans h1 h2⟩

/-- The output dictionary built for one table (parser.py lines 483-492). -/
def mkTableOut (s : MigState) (p : String × List (String × String)) : TableOut :=
  { table_name := p.1
    columns := p.2.map (fun c => ⟨c.1, c.2⟩)
    files := (alookup s.table_files p.1).getD []
    indexes := (alookup s.table_indexes p.1).getD []
    foreign_keys := (alookup s.table_fks p.1).getD [] }

/-- The unsorted result list, one record per entry of `table_schemas`. -/
def migRecords (files : List MigFile) : List TableOut :=
  (migState files).table_schemas.map (mkTableOut (migState files))

/-- `parse_migrations` (parser.py lines 435-496): fold all documents in
order, emit one record per table, sorted by table name. -/
def parse_migrations (files : List MigFile) : List TableOut :=
  List.insertionSort tblLe (migRecords files)

/-! ### Net-effect projections (used to state the fold's invariants) -/

/-- The effect of one operation on the ordered column map alone: the first
component of `applyOp`. -/
def applyColOp (sch : List (String × String)) (op : MigOp) : List (String × String) :=
  match op.action with
  | .add =>
      if op.type = "index" ∨ op.type = "unique" ∨ op.type = "primary" then sch
      else if op.type = "foreign" then sch
      else dictInsert sch op.name op.type
  | .drop => dictPop sch op.name

/-- The net column map of an operation sequence applied in order to an empty
map. -/
def colNet (ops : List MigOp) : List (String × String) := ops.foldl applyColOp []

/-- The index records an operation sequence contributes, in order (the second
component of `applyOp` never removes). -/
def idxNet (ops : List MigOp) : List IdxRec :=
  ops.filterMap (fun op =>
    match op.action with
    | .add =>
        if op.type = "index" ∨ op.type = "unique" ∨ op.type = "primary" then
          some ⟨op.name, op.type⟩
        else none
    | .drop => none)

/-- The foreign-key records an operation sequence contributes, in order. -/
def fkNet (ops : List MigOp) : List FkRec :=
  ops.filterMap (fun op =>
    match op.action with
    | .add =>
        if op.type = "index" ∨ op.type = "unique" ∨ op.type = "primary" then none
        else if op.type = "foreign" then
          some ⟨op.name, op.references, op.onTable, op.on_delete, op.on_update⟩
        else none
    | .drop => none)

/-- All events of an ordered document list, in processing order. -/
def eventsOf (files : List MigFile) : List MigEvent := files.flatMap fileEvents

/-- The operations applied to one table, concatenated across events in
processing order. -/
def opsOfEvents (es : List MigEvent) (t : String) : List MigOp :=
  (es.filter (fun e => decide (e.table = t))).flatMap MigEvent.ops

/-- The operations applied to one table across an ordered document list. -/
def opsOfTable (files : List MigFile) (t : String) : List MigOp :=
  opsOfEvents (eventsOf files) t

/-- An operation that re-adds column `c` to the column map: an `add` of `c`
whose type is neither an index kind nor `foreign` (those never touch the
column map). -/
def isColumnAdd (op : MigOp) (c : String) : Prop :=
  op.action = .add ∧ op.name = c ∧
    ¬(op.type = "index" ∨ op.type = "unique" ∨ op.type = "primary") ∧
    op.type ≠ "foreign"

/-- The tables a document touches. -/
def tablesOf (f : MigFile) : List String := (selectBlocks f.content).map MigBlock.table

/-- Two documents touching disjoint table sets. -/
def disjointTables (f g : MigFile) : Prop := ∀ t ∈ tablesOf f, t ∉ tablesOf g

instance (f g : MigFile) : Decidable (disjointTables f g) := by
  unfold disjointTables; infer_instance

/-! ### Structured generation (`AIBackend.generate_json`, ai_backend.py lines 23-39)

The backend's `generate` call and Python's `json.loads` are external
collaborators; `generate_json` is embedded as a function of the backend's
response text, parameterised by an abstract JSON parser. -/

/-- Python `hay.find(pat)` helper: the first index at which `pat` starts in
the remaining characters, counting from `i`. -/
def findSubAux (pat : List Char) (i : Nat) : List Char → Option Nat
  | [] => if pat.isEmpty then some i else none
  | c :: rest =>
      if pat.isPrefixOf (c :: rest) then some i else findSubAux pat (i + 1) rest

/-- Python `hay.find(pat)` (`none` for Python's `-1`). -/
def pyFind (hay pat : String) : Option Nat := findSubAux pat.data 0 hay.data

/-- Python `hay.rfind(pat)` helper: the last starting index of `pat`,
carrying the best match seen so far. -/
def rfindSubAux (pat : List Char) (i : Nat) (best : Option Nat) : List Char → Option Nat
  | [] => best
  | c :: rest =>
      rfindSubAux pat (i + 1)
        (if pat.isPrefixOf (c :: rest) then some i else best) rest

/-- Python `hay.rfind(pat)` for a non-empty pattern (`none` for `-1`). -/
def pyRfind (hay pat : String) : Option Nat := rfindSubAux pat.data 0 none hay.data

/-- Python slice `s[a:b]` (empty when `b ≤ a`). -/
def pySlice (s : String) (a b : Nat) : String := ⟨(s.data.drop a).take (b - a)⟩

/-- Python `s[:n]`. -/
def pyTake (s : String) (n : Nat) : String := ⟨s.data.take n⟩

/-- Python `pat in hay`. -/
def pyContains (hay pat : String) : Bool := (pyFind hay pat).isSome

/-- Python `s.startswith(p)`. -/
def pyStartsWith (s p : String) : Bool := p.data.isPrefixOf s.data

/-- Python `newline.join(lines)`. -/
def pyJoinLines : List String → String
  | [] => ""
  | [x] => x
  | x :: rest => x ++ "\n" ++ pyJoinLines rest

/-- The three-backtick fence delimiter. -/
def fenceMark : String := "```"

/-- The json-tagged fence opener. -/
def fenceJsonMark : String := "```json"

/-- The fence-stripping preamble of `generate_json` (ai_backend.py lines
27-34): if the text contains a json-tagged fence opener, keep the stripped
slice between the end of the first opener and the last fence delimiter;
otherwise, if the text starts with a fence delimiter, drop its first and
last lines; otherwise leave the text unchanged. -/
def strip_code_fence (text : String) : String :=
  if pyContains text fenceJsonMark then
    let start := (pyFind text fenceJsonMark).getD 0 + 7
    let stop := (pyRfind text fenceMark).getD 0
    pyStrip (pySlice text start stop)
  else if pyStartsWith text fenceMark then
    pyJoinLines ((pySplit '\n' text).drop 1).dropLast
  else text

/-- `generate_json` (ai_backend.py lines 23-39) as a function of the backend
response `text`, parameterised by the external JSON parser `loads`: strip a
possible code fence, then parse; a parse failure raises a malformed-response
error carrying the first 500 characters of the offending (stripped) text. -/
def generate_json (J : Type) (loads : String → Option J) (text : String) :
    Except String J :=
  match loads (strip_code_fence text) with
  | some v => Except.ok v
  | none => Except.error (pyTake (strip_code_fence text) 500)

/-! ### Migration-file decoding (`_parse_migration_file`, parser.py lines 500-501)

The source opens migration files with `open(path, mode r, encoding utf-8)`
and no `errors` handler, i.e. strict UTF-8 decoding.  The decoder below is
the strict UTF-8 decoding judgement on byte lists (code points as `Nat`). -/

/-- A UTF-8 continuation byte. -/
def isContByte (b : Nat) : Bool := decide (128 ≤ b ∧ b ≤ 191)

/-- The running state of strict UTF-8 validation/decoding, one byte at a
time: the number of continuation bytes still expected, the partially decoded
code point, the allowed range for the next continuation byte (which encodes
the overlong/surrogate/out-of-range restrictions after an `E0`/`ED`/`F0`/`F4`
lead), the emitted code points, and an error flag. -/
structure Utf8S where
  pending : Nat
  acc : Nat
  lo : Nat
  hi : Nat
  out : List Nat
  bad : Bool
deriving DecidableEq

/-- The initial decoder state. -/
def utf8Init : Utf8S := ⟨0, 0, 128, 191, [], false⟩

/-- One byte of strict UTF-8 decoding: ASCII is emitted directly, a lead byte
opens a 2-, 3- or 4-byte sequence with the appropriate range restriction on
its first continuation byte, a continuation byte in range extends or
completes the pending code point, and anything else marks the input bad. -/
def utf8Byte (st : Utf8S) (b : Nat) : Utf8S :=
  if st.bad then st
  else if st.pending = 0 then
    if b < 128 then { st with out := st.out ++ [b] }
    else if 194 ≤ b ∧ b ≤ 223 then
      { st with pending := 1, acc := b - 192, lo := 128, hi := 191 }
    else if 224 ≤ b ∧ b ≤ 239 then
      { st with
        pending := 2
        acc := b - 224
        lo := if b = 224 then 160 else 128
        hi := if b = 237 then 159 else 191 }
    else if 240 ≤ b ∧ b ≤ 244 then
      { st with
        pending := 3
        acc := b - 240
        lo := if b = 240 then 144 else 128
        hi := if b = 244 then 143 else 191 }
    else { st with bad := true }
  else if st.lo ≤ b ∧ b ≤ st.hi then
    if st.pending = 1 then
      { st with
        pending := 0
        acc := 0
        lo := 128
        hi := 191
        out := st.out ++ [st.acc * 64 + (b - 128)] }
    else
      { st with
        pending := st.pending - 1
        acc := st.acc * 64 + (b - 128)
        lo := 128
        hi := 191 }
  else { st with bad := true }

/-- Strict UTF-8 decoding of a byte list into code points, `none` on
ill-formed input — the behaviour of Python's default strict error handler.
Overlong encodings, surrogates, truncated sequences and out-of-range leads
are rejected. -/
def utf8DecodeStrict (bytes : List Nat) : Option (List Nat) :=
  if (bytes.foldl utf8Byte utf8Init).bad ∨ ¬(bytes.foldl utf8Byte utf8Init).pending = 0 then
    none
  else some (bytes.foldl utf8Byte utf8Init).out

/-- The strict read `_parse_migration_file` performs on a document's bytes:
the decoded code points, or a decoding error. -/
def readMigrationText (bytes : List Nat) : Except Unit (List Nat) :=
  match utf8DecodeStrict bytes with
  | some cps => Except.ok cps
  | none => Except.error ()

/-- Modelled from the spec: the permissive read the specification describes
("read permissively, substituting undecodable bytes"), which is *not* what
`_parse_migration_file` does — each ill-formed sequence is replaced by the
replacement character U+FFFD (65533) and decoding continues. -/
def utf8DecodeReplace : List Nat → List Nat
  | [] => []
  | b :: r =>
      if b < 128 then b :: utf8DecodeReplace r
      else if 194 ≤ b ∧ b ≤ 223 then
        match r with
        | [] => [65533]
        | b2 :: r2 =>
            if isContByte b2 then ((b - 192) * 64 + (b2 - 128)) :: utf8DecodeReplace r2
            else 65533 :: utf8DecodeReplace r2
      else if 224 ≤ b ∧ b ≤ 239 then
        match r with
        | [] => [65533]
        | [_] => [65533, 65533]
        | b2 :: b3 :: r3 =>
            if (if b = 224 then decide (160 ≤ b2 ∧ b2 ≤ 191)
                else if b = 237 then decide (128 ≤ b2 ∧ b2 ≤ 159)
                else isContByte b2) && isContByte b3 then
              ((b - 224) * 4096 + (b2 - 128) * 64 + (b3 - 128)) :: utf8DecodeReplace r3
            else 65533 :: utf8DecodeReplace r3
      else if 240 ≤ b ∧ b ≤ 244 then
        match r with
        | [] => [65533]
        | [_] => [65533, 65533]
        | [_, _] => [65533, 65533, 65533]
        | b2 :: b3 :: b4 :: r4 =>
            if (if b = 240 then decide (144 ≤ b2 ∧ b2 ≤ 191)
                else if b = 244 then decide (128 ≤ b2 ∧ b2 ≤ 143)
                else isContByte b2) && isContByte b3 && isContByte b4 then
              ((b - 240) * 262144 + (b2 - 128) * 4096 + (b3 - 128) * 64 + (b4 - 128))
                :: utf8DecodeReplace r4
            else 65533 :: utf8DecodeReplace r4
      else 65533 :: utf8DecodeReplace r

/-! ### Concrete migration documents for the claims' scenarios -/

/-- Scenario document 1: `Schema::create(todos)` with `table.id()` and
`table.string(title)`, inside an up section. -/
def todosDoc1 : MigFile :=
  ⟨"0001_01_01_000000_create_todos_table.php",
    .sections [] [⟨"create", "todos", [.idCol "id" none, .typedCol "string" "title"]⟩] []⟩

/-- Scenario document 2: `Schema::table(todos)` adding `table.boolean(done)`
and dropping `title` in the up section; the down section re-drops `done`
(and must be ignored). -/
def todosDoc2 : MigFile :=
  ⟨"0001_01_02_000000_alter_todos_table.php",
    .sections [] [⟨"table", "todos", [.typedCol "boolean" "done", .dropCol "title"]⟩]
      [⟨"table", "todos", [.dropCol "done"]⟩]⟩

/-- The expected result of the end-to-end scenario: table `todos` with
exactly the columns `id` then `done`, `title` absent. -/
def todosExpected : TableOut :=
  ⟨"todos", [⟨"id", "id"⟩, ⟨"done", "boolean"⟩],
    ["0001_01_01_000000_create_todos_table.php",
     "0001_01_02_000000_alter_todos_table.php"], [], []⟩

/-- A document declaring a unique index on `users.email`. -/
def usersDocX : MigFile :=
  ⟨"0002_create_users.php",
    .whole [⟨"create", "users", [.typedCol "string" "email", .indexDecl "unique" "email"]⟩]⟩

/-- A later document dropping the `email` column. -/
def usersDocY : MigFile :=
  ⟨"0003_alter_users.php", .whole [⟨"table", "users", [.dropCol "email"]⟩]⟩

/-- The result for the `users` documents: the unique-index record survives the
later drop of its column. -/
def usersExpected : TableOut :=
  ⟨"users", [], ["0002_create_users.php", "0003_alter_users.php"],
    [⟨"email", "unique"⟩], []⟩

/-! ### Dictionary well-formedness and state equivalence -/

/-- The keys of an association list are pairwise distinct (always true of a
Python dict). -/
def NodupKeys (m : List (String × α)) : Prop := (m.map Prod.fst).Nodup

/-- The `setdefault`-then-assign net effect on one key: overwrite in place
when present, append when absent, the new value computed from the present
value or the default. -/
def alUpd (m : List (String × α)) (k : String) (d : α) (f : α → α) : List (String × α) :=
  if (alookup m k).isSome then alSet m k (f ((alookup m k).getD d)) else m ++ [(k, f d)]

/-- All four dictionaries of the fold state have distinct keys, and no table
key is empty. -/
structure WfState (s : MigState) : Prop where
  schemas : NodupKeys s.table_schemas
  indexes : NodupKeys s.table_indexes
  fks : NodupKeys s.table_fks
  files : NodupKeys s.table_files
  keysNe : ∀ p ∈ s.table_schemas, p.1 ≠ ""

/-- Two fold states holding the same dictionaries up to entry order. -/
structure MEquiv (s t : MigState) : Prop where
  schemas : s.table_schemas.Perm t.table_schemas
  indexes : s.table_indexes.Perm t.table_indexes
  fks : s.table_fks.Perm t.table_fks
  files : s.table_files.Perm t.table_files

/-! # Theorems

## Association-list lemmas -/

theorem alookup_nil (k : String) : alookup ([] : List (String × α)) k = none := rfl

theorem alookup_cons (p : String × α) (m : List (String × α)) (k : String) :
    alookup (p :: m) k = if p.1 = k then some p.2 else alookup m k := rfl

theorem alookup_append_left {m₁ : List (String × α)} {k : String}
    (h : (alookup m₁ k).isSome) (m₂ : List (String × α)) :
    alookup (m₁ ++ m₂) k = alookup m₁ k := by
  induction m₁ with
  | nil => simp [alookup] at h
  | cons p rest ih =>
      by_cases hp : p.1 = k
      · simp [List.cons_append, alookup_cons, hp]
      · simp only [List.cons_append, alookup_cons, hp, if_false] at h ⊢
        exact ih h

theorem alookup_append_right {m₁ : List (String × α)} {k : String}
    (h : alookup m₁ k = none) (m₂ : List (String × α)) :
    alookup (m₁ ++ m₂) k = alookup m₂ k := by
  induction m₁ with
  | nil => simp
  | cons p rest ih =>
      by_cases hp : p.1 = k
      · simp [alookup_cons, hp] at h
      · simp only [List.cons_append, alookup_cons, hp, if_false] at h ⊢
        exact ih h

theorem alookup_isSome_iff_mem {m : List (String × α)} {k : String} :
    (alookup m k).isSome ↔ k ∈ m.map Prod.fst := by
  induction m with
  | nil => simp [alookup]
  | cons p rest ih =>
      by_cases hp : p.1 = k <;> simp [alookup_cons, hp, ih]
      exact fun h => (hp h.symm).elim

theorem alookup_eq_none_iff_not_mem {m : List (String × α)} {k : String} :
    alookup m k = none ↔ k ∉ m.map Prod.fst := by
  rw [← alookup_isSome_iff_mem, Option.not_isSome_iff_eq_none]

theorem alookup_alSet_self (m : List (String × α)) (k : String) (v : α) :
    alookup (alSet m k v) k = (alookup m k).map (fun _ => v) := by
  induction m with
  | nil => simp [alookup, alSet]
  | cons p rest ih =>
      by_cases hp : p.1 = k <;> simp [alSet, alookup_cons, hp] at ih ⊢ <;> exact ih

theorem alookup_alSet_ne (m : List (String × α)) {k j : String} (v : α) (h : j ≠ k) :
    alookup (alSet m k v) j = alookup m j := by
  induction m with
  | nil => simp [alookup, alSet]
  | cons p rest ih =>
      by_cases hp : p.1 = k
      · have : ¬(k = j) := fun hkj => h hkj.symm
        simp [alSet, alookup_cons, hp, this] at ih ⊢
        exact ih
      · simp [alSet, alookup_cons, hp] at ih ⊢
        by_cases hpj : p.1 = j <;> simp [hpj, ih]

theorem alSet_keys (m : List (String × α)) (k : String) (v : α) :
    (alSet m k v).map Prod.fst = m.map Prod.fst := by
  unfold alSet
  rw [List.map_map]
  apply List.map_congr_left
  intro p _
  by_cases hpk : p.1 = k <;> simp [hpk]

theorem alSet_eq_self_of_none {m : List (String × α)} {k : String}
    (h : alookup m k = none) (v : α) : alSet m k v = m := by
  induction m with
  | nil => rfl
  | cons p rest ih =>
      by_cases hp : p.1 = k
      · simp [alookup_cons, hp] at h
      · simp only [alookup_cons, hp, if_false] at h
        simp [alSet, hp] at ih ⊢
        exact ih h

theorem alSet_append (m₁ m₂ : List (String × α)) (k : String) (v : α) :
    alSet (m₁ ++ m₂) k v = alSet m₁ k v ++ alSet m₂ k v := by
  simp [alSet]

theorem alSet_eq_self_of_lookup {m : List (String × α)} {k : String} {v : α}
    (hn : NodupKeys m) (h : alookup m k = some v) : alSet m k v = m := by
  induction m with
  | nil => simp [alookup] at h
  | cons p rest ih =>
      simp only [NodupKeys, List.map_cons, List.nodup_cons] at hn
      unfold alSet at ih ⊢
      rw [List.map_cons]
      by_cases hp : p.1 = k
      · have hrest : alookup rest k = none := by
          rw [alookup_eq_none_iff_not_mem]
          rw [hp] at hn
          exact hn.1
        have htail := alSet_eq_self_of_none hrest v
        unfold alSet at htail
        rw [alookup_cons, if_pos hp] at h
        have h2 : p.2 = v := Option.some.inj h
        rw [if_pos hp, htail]
        obtain ⟨a, b⟩ := p
        simp only at hp h2
        rw [hp, h2]
      · simp only [alookup_cons, hp, if_false] at h
        rw [if_neg hp, ih hn.2 h]

theorem alUpd_of_isSome {m : List (String × α)} {k : String}
    (h : (alookup m k).isSome) (d : α) (f : α → α) :
    alUpd m k d f = alSet m k (f ((alookup m k).getD d)) := by
  simp [alUpd, h]

theorem alUpd_of_none {m : List (String × α)} {k : String}
    (h : alookup m k = none) (d : α) (f : α → α) :
    alUpd m k d f = m ++ [(k, f d)] := by
  simp [alUpd, h]

theorem alookup_alUpd_self (m : List (String × α)) (k : String) (d : α) (f : α → α) :
    alookup (alUpd m k d f) k = some (f ((alookup m k).getD d)) := by
  unfold alUpd
  by_cases h : (alookup m k).isSome
  · rcases Option.isSome_iff_exists.mp h with ⟨v, hv⟩
    simp [h, alookup_alSet_self, hv]
  · have hn : alookup m k = none := Option.not_isSome_iff_eq_none.mp h
    simp [h, alookup_append_right hn, alookup_cons, hn]

theorem alookup_alUpd_ne (m : List (String × α)) {k j : String} (d : α) (f : α → α)
    (h : j ≠ k) : alookup (alUpd m k d f) j = alookup m j := by
  unfold alUpd
  by_cases hs : (alookup m k).isSome
  · simp [hs, alookup_alSet_ne m _ h]
  · by_cases hj : (alookup m j).isSome
    · simp [hs, alookup_append_left hj]
    · have hjn : alookup m j = none := Option.not_isSome_iff_eq_none.mp hj
      rw [if_neg hs, alookup_append_right hjn, alookup_cons]
      simp only [alookup_nil, hjn]
      rw [if_neg (fun hkj => h hkj.symm)]

theorem alUpd_nodup {m : List (String × α)} (hn : NodupKeys m) (k : String)
    (d : α) (f : α → α) : NodupKeys (alUpd m k d f) := by
  unfold alUpd
  by_cases h : (alookup m k).isSome
  · simpa [NodupKeys, h, alSet_keys] using hn
  · have hmem : k ∉ m.map Prod.fst := by
      rw [← alookup_isSome_iff_mem]; exact h
    rw [if_neg h]
    unfold NodupKeys
    rw [List.map_append, List.map_singleton]
    refine List.Nodup.append hn (List.nodup_singleton k) ?_
    intro a ha hak
    rw [List.mem_singleton] at hak
    have hak2 : a = k := hak
    exact hmem (hak2 ▸ ha)

theorem alUpd_fst_mem {m : List (String × α)} {k : String} {d : α} {f : α → α}
    {q : String × α} (hq : q ∈ alUpd m k d f) : q.1 = k ∨ q.1 ∈ m.map Prod.fst := by
  unfold alUpd at hq
  by_cases h : (alookup m k).isSome
  · rw [if_pos h] at hq
    unfold alSet at hq
    rcases List.mem_map.mp hq with ⟨p, hp, hpq⟩
    by_cases hpk : p.1 = k
    · rw [if_pos hpk] at hpq
      left; rw [← hpq]
    · rw [if_neg hpk] at hpq
      right; rw [← hpq]; exact List.mem_map_of_mem _ hp
  · rw [if_neg h] at hq
    rcases List.mem_append.mp hq with hq | hq
    · right; exact List.mem_map_of_mem _ hq
    · left; rw [List.mem_singleton.mp hq]

/-! ## Permutation lemmas for dictionaries -/

theorem nodupKeys_perm {m m2 : List (String × α)} (hp : m.Perm m2) (hn : NodupKeys m) :
    NodupKeys m2 := ((hp.map Prod.fst).nodup_iff).mp hn

theorem alookup_perm {m m2 : List (String × α)} (hp : m.Perm m2) (k : String) :
    NodupKeys m → alookup m k = alookup m2 k := by
  induction hp with
  | nil => intro _; rfl
  | cons p h ih =>
      intro hn
      rw [alookup_cons, alookup_cons]
      by_cases hpk : p.1 = k
      · rw [if_pos hpk, if_pos hpk]
      · rw [if_neg hpk, if_neg hpk]
        refine ih ?_
        simp only [NodupKeys, List.map_cons, List.nodup_cons] at hn
        exact hn.2
  | swap x y l =>
      intro hn
      have hyx : y.1 ≠ x.1 := by
        simp only [NodupKeys, List.map_cons, List.nodup_cons, List.mem_cons] at hn
        intro hEq
        exact hn.1 (Or.inl hEq)
      rw [alookup_cons, alookup_cons, alookup_cons, alookup_cons]
      by_cases hy : y.1 = k
      · have hx : ¬x.1 = k := by rw [← hy]; exact fun hq => hyx hq.symm
        rw [if_pos hy, if_neg hx, if_pos hy]
      · rw [if_neg hy]
        by_cases hx : x.1 = k
        · rw [if_pos hx, if_pos hx]
        · rw [if_neg hx, if_neg hx, if_neg hy]
  | trans h1 h2 ih1 ih2 =>
      intro hn
      exact (ih1 hn).trans (ih2 (nodupKeys_perm h1 hn))

theorem alUpd_perm {m m2 : List (String × α)} (hp : m.Perm m2) (hn : NodupKeys m)
    (k : String) (d : α) (f : α → α) : (alUpd m k d f).Perm (alUpd m2 k d f) := by
  have hl := alookup_perm hp k hn
  unfold alUpd
  rw [← hl]
  by_cases hs : (alookup m k).isSome
  · rw [if_pos hs, if_pos hs]
    exact hp.map _
  · rw [if_neg hs, if_neg hs]
    exact hp.append_right _

theorem alSet_comm {m : List (String × α)} {k j : String} (h : k ≠ j) (v w : α) :
    alSet (alSet m k v) j w = alSet (alSet m j w) k v := by
  unfold alSet
  rw [List.map_map, List.map_map]
  apply List.map_congr_left
  intro p _
  by_cases hpk : p.1 = k
  · have hpj : ¬p.1 = j := by rw [hpk]; exact h
    simp [Function.comp, hpk, hpj, h]
  · by_cases hpj : p.1 = j
    · have : ¬j = k := fun hq => h hq.symm
      simp [Function.comp, hpk, hpj, this]
    · simp [Function.comp, hpk, hpj]

theorem alUpd_comm {m : List (String × α)} {k j : String} (hkj : k ≠ j)
    (d e : α) (f g : α → α) :
    (alUpd (alUpd m k d f) j e g).Perm (alUpd (alUpd m j e g) k d f) := by
  have hjk : j ≠ k := fun hq => hkj hq.symm
  have h1 : alookup (alUpd m k d f) j = alookup m j := alookup_alUpd_ne m d f hjk
  have h2 : alookup (alUpd m j e g) k = alookup m k := alookup_alUpd_ne m e g hkj
  by_cases hk : (alookup m k).isSome <;> by_cases hj : (alookup m j).isSome
  · -- both keys present: the two updates are in-place and commute exactly
    rw [alUpd_of_isSome ((by rw [h1]; exact hj : (alookup (alUpd m k d f) j).isSome)), h1,
        alUpd_of_isSome ((by rw [h2]; exact hk : (alookup (alUpd m j e g) k).isSome)), h2,
        alUpd_of_isSome hk, alUpd_of_isSome hj,
        alSet_comm hkj]
  · have hjn : alookup m j = none := Option.not_isSome_iff_eq_none.mp hj
    have hl : alUpd (alUpd m k d f) j e g =
        alSet m k (f ((alookup m k).getD d)) ++ [(j, g e)] := by
      rw [alUpd_of_none ((by rw [h1]; exact hjn : alookup (alUpd m k d f) j = none)),
          alUpd_of_isSome hk]
    have hr : alUpd (alUpd m j e g) k d f =
        alSet m k (f ((alookup m k).getD d)) ++ [(j, g e)] := by
      rw [alUpd_of_isSome ((by rw [h2]; exact hk : (alookup (alUpd m j e g) k).isSome)), h2,
          alUpd_of_none hjn, alSet_append]
      congr 1
      unfold alSet
      simp [hjk]
    rw [hl, hr]
  · have hkn : alookup m k = none := Option.not_isSome_iff_eq_none.mp hk
    have hl : alUpd (alUpd m k d f) j e g =
        alSet m j (g ((alookup m j).getD e)) ++ [(k, f d)] := by
      rw [alUpd_of_isSome ((by rw [h1]; exact hj : (alookup (alUpd m k d f) j).isSome)), h1,
          alUpd_of_none hkn, alSet_append]
      congr 1
      unfold alSet
      simp [hkj]
    have hr : alUpd (alUpd m j e g) k d f =
        alSet m j (g ((alookup m j).getD e)) ++ [(k, f d)] := by
      rw [alUpd_of_none ((by rw [h2]; exact hkn : alookup (alUpd m j e g) k = none)),
          alUpd_of_isSome hj]
    rw [hl, hr]
  · have hkn : alookup m k = none := Option.not_isSome_iff_eq_none.mp hk
    have hjn : alookup m j = none := Option.not_isSome_iff_eq_none.mp hj
    have hl : alUpd (alUpd m k d f) j e g = (m ++ [(k, f d)]) ++ [(j, g e)] := by
      rw [alUpd_of_none ((by rw [h1]; exact hjn : alookup (alUpd m k d f) j = none)),
          alUpd_of_none hkn]
    have hr : alUpd (alUpd m j e g) k d f = (m ++ [(j, g e)]) ++ [(k, f d)] := by
      rw [alUpd_of_none ((by rw [h2]; exact hkn : alookup (alUpd m j e g) k = none)),
          alUpd_of_none hjn]
    rw [hl, hr, List.append_assoc, List.append_assoc]
    exact List.Perm.append_left m (List.Perm.swap (j, g e) (k, f d) [])

theorem alookup_alSetdefault_self (m : List (String × α)) (k : String) (d : α) :
    alookup (alSetdefault m k d) k = some ((alookup m k).getD d) := by
  unfold alSetdefault
  by_cases hs : (alookup m k).isSome
  · rcases Option.isSome_iff_exists.mp hs with ⟨v, hv⟩
    rw [if_pos hs, hv, Option.getD_some]
  · have hn : alookup m k = none := Option.not_isSome_iff_eq_none.mp hs
    rw [if_neg hs, alookup_append_right hn, alookup_cons, if_pos rfl, hn]
    rfl

theorem alookup_alSetdefault_ne (m : List (String × α)) {k j : String} (d : α)
    (h : j ≠ k) : alookup (alSetdefault m k d) j = alookup m j := by
  unfold alSetdefault
  by_cases hs : (alookup m k).isSome
  · rw [if_pos hs]
  · by_cases hj : (alookup m j).isSome
    · rw [if_neg hs, alookup_append_left hj]
    · have hjn : alookup m j = none := Option.not_isSome_iff_eq_none.mp hj
      rw [if_neg hs, alookup_append_right hjn, alookup_cons]
      simp only [alookup_nil, hjn]
      rw [if_neg (fun hq => h hq.symm)]

theorem alSet_alSetdefault (m : List (String × α)) (k : String) (d : α) (f : α → α) :
    alSet (alSetdefault m k d) k (f ((alookup (alSetdefault m k d) k).getD d)) =
      alUpd m k d f := by
  rw [alookup_alSetdefault_self, Option.getD_some]
  unfold alSetdefault alUpd
  by_cases hs : (alookup m k).isSome
  · rw [if_pos hs, if_pos hs]
  · have hn : alookup m k = none := Option.not_isSome_iff_eq_none.mp hs
    rw [if_neg hs, if_neg hs, alSet_append, alSet_eq_self_of_none hn]
    have : alSet [(k, d)] k (f ((alookup m k).getD d)) = [(k, f ((alookup m k).getD d))] := by
      unfold alSet
      simp
    rw [this, hn, Option.getD_none]

/-! ## Projections of the operation fold -/

theorem applyOp_schema (a : SchemaAcc) (op : MigOp) :
    (applyOp a op).schema = applyColOp a.schema op := by
  unfold applyOp applyColOp
  cases op.action
  · by_cases h1 : op.type = "index" ∨ op.type = "unique" ∨ op.type = "primary"
    · simp [h1]
    · by_cases h2 : op.type = "foreign" <;> simp [h1, h2]
  · rfl

theorem foldl_applyOp_schema (ops : List MigOp) (acc : SchemaAcc) :
    (ops.foldl applyOp acc).schema = ops.foldl applyColOp acc.schema := by
  induction ops generalizing acc with
  | nil => rfl
  | cons op rest ih =>
      rw [List.foldl_cons, List.foldl_cons, ih, applyOp_schema]

theorem foldl_applyOp_idxs (ops : List MigOp) (acc : SchemaAcc) :
    (ops.foldl applyOp acc).idxs = acc.idxs ++ idxNet ops := by
  induction ops generalizing acc with
  | nil => simp [idxNet]
  | cons op rest ih =>
      rw [List.foldl_cons, ih]
      unfold idxNet
      rw [List.filterMap_cons]
      cases hact : op.action
      · by_cases h1 : op.type = "index" ∨ op.type = "unique" ∨ op.type = "primary"
        · simp [applyOp, hact, h1, List.append_assoc]
        · by_cases h2 : op.type = "foreign" <;> simp [applyOp, hact, h1, h2]
      · simp [applyOp, hact]

theorem foldl_applyOp_fks (ops : List MigOp) (acc : SchemaAcc) :
    (ops.foldl applyOp acc).fks = acc.fks ++ fkNet ops := by
  induction ops generalizing acc with
  | nil => simp [fkNet]
  | cons op rest ih =>
      rw [List.foldl_cons, ih]
      unfold fkNet
      rw [List.filterMap_cons]
      cases hact : op.action
      · by_cases h1 : op.type = "index" ∨ op.type = "unique" ∨ op.type = "primary"
        · simp [applyOp, hact, h1]
        · by_cases h2 : op.type = "foreign" <;> simp [applyOp, hact, h1, h2, List.append_assoc]
      · simp [applyOp, hact]

/-! ## Normal forms of the loop body -/

theorem processEvent_skip (s : MigState) (e : MigEvent) (h : e.table = "") :
    processEvent s e = s := by
  unfold processEvent
  rw [if_pos h]

theorem processEvent_schemas (s : MigState) (e : MigEvent) (h : ¬e.table = "") :
    (processEvent s e).table_schemas =
      alUpd s.table_schemas e.table [] (fun sch => e.ops.foldl applyColOp sch) := by
  unfold processEvent
  rw [if_neg h]
  dsimp only
  rw [foldl_applyOp_schema]
  exact alSet_alSetdefault s.table_schemas e.table []
    (fun sch => e.ops.foldl applyColOp sch)

theorem processEvent_indexes (s : MigState) (e : MigEvent) (h : ¬e.table = "") :
    (processEvent s e).table_indexes =
      alUpd s.table_indexes e.table [] (fun ix => ix ++ idxNet e.ops) := by
  unfold processEvent
  rw [if_neg h]
  dsimp only
  rw [foldl_applyOp_idxs]
  exact alSet_alSetdefault s.table_indexes e.table [] (fun ix => ix ++ idxNet e.ops)

theorem processEvent_fks (s : MigState) (e : MigEvent) (h : ¬e.table = "") :
    (processEvent s e).table_fks =
      alUpd s.table_fks e.table [] (fun fk => fk ++ fkNet e.ops) := by
  unfold processEvent
  rw [if_neg h]
  dsimp only
  rw [foldl_applyOp_fks]
  exact alSet_alSetdefault s.table_fks e.table [] (fun fk => fk ++ fkNet e.ops)

theorem processEvent_files (s : MigState) (e : MigEvent) (h : ¬e.table = "")
    (hn : NodupKeys s.table_files) :
    (processEvent s e).table_files =
      alUpd s.table_files e.table []
        (fun l => if e.fname ∈ l then l else l ++ [e.fname]) := by
  unfold processEvent
  rw [if_neg h]
  dsimp only
  rw [alookup_alSetdefault_self, Option.getD_some]
  by_cases hmem : e.fname ∈ (alookup s.table_files e.table).getD []
  · rw [if_pos hmem]
    by_cases hs : (alookup s.table_files e.table).isSome
    · rcases Option.isSome_iff_exists.mp hs with ⟨v, hv⟩
      rw [alUpd_of_isSome hs]
      rw [hv, Option.getD_some] at hmem ⊢
      rw [if_pos hmem]
      unfold alSetdefault
      rw [if_pos hs]
      exact (alSet_eq_self_of_lookup hn hv).symm
    · exfalso
      have hveq : (alookup s.table_files e.table).getD ([] : List String) = [] := by
        rw [Option.not_isSome_iff_eq_none.mp hs]
        rfl
      rw [hveq] at hmem
      simp at hmem
  · rw [if_neg hmem]
    have hgen := alSet_alSetdefault s.table_files e.table []
      (fun l => if e.fname ∈ l then l else l ++ [e.fname])
    rw [alookup_alSetdefault_self, Option.getD_some] at hgen
    rw [if_neg hmem] at hgen
    exact hgen

theorem wf_init : WfState initMigState := by
  constructor <;> first
    | exact List.nodup_nil
    | intro p hp; simp [initMigState] at hp

theorem processEvent_wf {s : MigState} (hw : WfState s) (e : MigEvent) :
    WfState (processEvent s e) := by
  by_cases h : e.table = ""
  · rw [processEvent_skip s e h]; exact hw
  · constructor
    · rw [processEvent_schemas s e h]; exact alUpd_nodup hw.schemas _ _ _
    · rw [processEvent_indexes s e h]; exact alUpd_nodup hw.indexes _ _ _
    · rw [processEvent_fks s e h]; exact alUpd_nodup hw.fks _ _ _
    · rw [processEvent_files s e h hw.files]; exact alUpd_nodup hw.files _ _ _
    · rw [processEvent_schemas s e h]
      intro p hp
      rcases alUpd_fst_mem hp with hk | hk
      · rw [hk]; exact h
      · rcases List.mem_map.mp hk with ⟨q, hq, hq2⟩
        rw [← hq2]
        exact hw.keysNe q hq

theorem mequiv_refl (s : MigState) : MEquiv s s :=
  ⟨List.Perm.refl _, List.Perm.refl _, List.Perm.refl _, List.Perm.refl _⟩

theorem mequiv_symm {s t : MigState} (h : MEquiv s t) : MEquiv t s :=
  ⟨h.schemas.symm, h.indexes.symm, h.fks.symm, h.files.symm⟩

theorem mequiv_trans {s t u : MigState} (h1 : MEquiv s t) (h2 : MEquiv t u) : MEquiv s u :=
  ⟨h1.schemas.trans h2.schemas, h1.indexes.trans h2.indexes,
   h1.fks.trans h2.fks, h1.files.trans h2.files⟩

theorem wf_of_mequiv {s t : MigState} (hw : WfState s) (he : MEquiv s t) : WfState t := by
  constructor
  · exact nodupKeys_perm he.schemas hw.schemas
  · exact nodupKeys_perm he.indexes hw.indexes
  · exact nodupKeys_perm he.fks hw.fks
  · exact nodupKeys_perm he.files hw.files
  · intro p hp
    exact hw.keysNe p (he.schemas.symm.subset hp)

theorem processEvent_mequiv {s t : MigState} (he : MEquiv s t) (hw : WfState s)
    (e : MigEvent) : MEquiv (processEvent s e) (processEvent t e) := by
  by_cases h : e.table = ""
  · rw [processEvent_skip s e h, processEvent_skip t e h]; exact he
  · have hwt : WfState t := wf_of_mequiv hw he
    constructor
    · rw [processEvent_schemas s e h, processEvent_schemas t e h]
      exact alUpd_perm he.schemas hw.schemas _ _ _
    · rw [processEvent_indexes s e h, processEvent_indexes t e h]
      exact alUpd_perm he.indexes hw.indexes _ _ _
    · rw [processEvent_fks s e h, processEvent_fks t e h]
      exact alUpd_perm he.fks hw.fks _ _ _
    · rw [processEvent_files s e h hw.files, processEvent_files t e h hwt.files]
      exact alUpd_perm he.files hw.files _ _ _

theorem processEvent_comm {s : MigState} (hw : WfState s) {e1 e2 : MigEvent}
    (hne : e1.table ≠ e2.table) :
    MEquiv (processEvent (processEvent s e1) e2)
      (processEvent (processEvent s e2) e1) := by
  by_cases h1 : e1.table = ""
  · rw [processEvent_skip s e1 h1, processEvent_skip (processEvent s e2) e1 h1]
    exact mequiv_refl _
  · by_cases h2 : e2.table = ""
    · rw [processEvent_skip s e2 h2, processEvent_skip (processEvent s e1) e2 h2]
      exact mequiv_refl _
    · have hw1 : WfState (processEvent s e1) := processEvent_wf hw e1
      have hw2 : WfState (processEvent s e2) := processEvent_wf hw e2
      constructor
      · rw [processEvent_schemas _ e2 h2, processEvent_schemas s e1 h1,
            processEvent_schemas _ e1 h1, processEvent_schemas s e2 h2]
        exact alUpd_comm hne [] [] _ _
      · rw [processEvent_indexes _ e2 h2, processEvent_indexes s e1 h1,
            processEvent_indexes _ e1 h1, processEvent_indexes s e2 h2]
        exact alUpd_comm hne [] [] _ _
      · rw [processEvent_fks _ e2 h2, processEvent_fks s e1 h1,
            processEvent_fks _ e1 h1, processEvent_fks s e2 h2]
        exact alUpd_comm hne [] [] _ _
      · rw [processEvent_files _ e2 h2 hw1.files, processEvent_files s e1 h1 hw.files,
            processEvent_files _ e1 h1 hw2.files, processEvent_files s e2 h2 hw.files]
        exact alUpd_comm hne [] [] _ _

/-! ## Fold-level lemmas for the event and file loops -/

theorem foldl_processEvent_wf {s : MigState} (hw : WfState s) (es : List MigEvent) :
    WfState (es.foldl processEvent s) := by
  induction es generalizing s with
  | nil => exact hw
  | cons e rest ih => exact ih (processEvent_wf hw e)

theorem foldl_processEvent_mequiv {s t : MigState} (he : MEquiv s t) (hw : WfState s)
    (es : List MigEvent) :
    MEquiv (es.foldl processEvent s) (es.foldl processEvent t) := by
  induction es generalizing s t with
  | nil => exact he
  | cons e rest ih =>
      exact ih (processEvent_mequiv he hw e) (processEvent_wf hw e)

theorem processEvent_foldl_comm {s : MigState} (hw : WfState s) {e : MigEvent}
    {es : List MigEvent} (hne : ∀ e2 ∈ es, e.table ≠ e2.table) :
    MEquiv (es.foldl processEvent (processEvent s e))
      (processEvent (es.foldl processEvent s) e) := by
  induction es generalizing s with
  | nil => exact mequiv_refl _
  | cons e2 rest ih =>
      rw [List.foldl_cons, List.foldl_cons]
      have hcomm := processEvent_comm hw (hne e2 (List.mem_cons_self e2 rest))
      have hstep := foldl_processEvent_mequiv hcomm
        (processEvent_wf (processEvent_wf hw e) e2) rest
      refine mequiv_trans hstep ?_
      exact ih (processEvent_wf hw e2) (fun e3 h3 => hne e3 (List.mem_cons_of_mem e2 h3))

theorem foldl_foldl_comm {s : MigState} (hw : WfState s) {es1 es2 : List MigEvent}
    (hne : ∀ a ∈ es1, ∀ b ∈ es2, a.table ≠ b.table) :
    MEquiv (es2.foldl processEvent (es1.foldl processEvent s))
      (es1.foldl processEvent (es2.foldl processEvent s)) := by
  induction es1 generalizing s with
  | nil => exact mequiv_refl _
  | cons e rest ih =>
      rw [List.foldl_cons, List.foldl_cons]
      have h1 := ih (processEvent_wf hw e)
        (fun a ha b hb => hne a (List.mem_cons_of_mem e ha) b hb)
      refine mequiv_trans h1 ?_
      have h2 : MEquiv (es2.foldl processEvent (processEvent s e))
          (processEvent (es2.foldl processEvent s) e) :=
        processEvent_foldl_comm hw (fun b hb => hne e (List.mem_cons_self e rest) b hb)
      exact foldl_processEvent_mequiv h2 (foldl_processEvent_wf (processEvent_wf hw e) es2) rest

theorem fileEvents_table_mem {f : MigFile} {e : MigEvent} (he : e ∈ fileEvents f) :
    e.table ∈ tablesOf f := by
  unfold fileEvents parse_migration_file at he
  unfold tablesOf
  rcases List.mem_map.mp he with ⟨p, hp, hpe⟩
  rcases List.mem_map.mp hp with ⟨b, hb, hbp⟩
  rw [← hpe]
  dsimp only
  rw [← hbp]
  exact List.mem_map_of_mem _ hb

theorem disjointTables_symm {f g : MigFile} (h : disjointTables f g) :
    disjointTables g f :=
  fun t ht hcontra => h t hcontra ht

theorem processFile_wf {s : MigState} (hw : WfState s) (f : MigFile) :
    WfState (processFile s f) := foldl_processEvent_wf hw (fileEvents f)

theorem processFile_mequiv {s t : MigState} (he : MEquiv s t) (hw : WfState s)
    (f : MigFile) : MEquiv (processFile s f) (processFile t f) :=
  foldl_processEvent_mequiv he hw (fileEvents f)

theorem processFile_comm {s : MigState} (hw : WfState s) {f g : MigFile}
    (hd : disjointTables f g) :
    MEquiv (processFile (processFile s f) g) (processFile (processFile s g) f) := by
  unfold processFile
  exact foldl_foldl_comm hw (fun a ha b hb =>
    fun hEq => hd a.table (fileEvents_table_mem ha) (hEq ▸ fileEvents_table_mem hb))

theorem foldl_processFile_wf {s : MigState} (hw : WfState s) (l : List MigFile) :
    WfState (l.foldl processFile s) := by
  induction l generalizing s with
  | nil => exact hw
  | cons f rest ih => exact ih (processFile_wf hw f)

theorem foldl_processFile_mequiv {s t : MigState} (he : MEquiv s t) (hw : WfState s)
    (l : List MigFile) : MEquiv (l.foldl processFile s) (l.foldl processFile t) := by
  induction l generalizing s t with
  | nil => exact he
  | cons f rest ih =>
      exact ih (processFile_mequiv he hw f) (processFile_wf hw f)

theorem foldl_processFile_perm {l1 l2 : List MigFile} (hp : l1.Perm l2) :
    l1.Pairwise disjointTables → ∀ s : MigState, WfState s →
      MEquiv (l1.foldl processFile s) (l2.foldl processFile s) := by
  induction hp with
  | nil => intro _ s _; exact mequiv_refl s
  | cons x p ih =>
      intro hd s hw
      rw [List.foldl_cons, List.foldl_cons]
      exact ih (List.pairwise_cons.mp hd).2 (processFile s x) (processFile_wf hw x)
  | swap x y l =>
      intro hd s hw
      rw [List.foldl_cons, List.foldl_cons, List.foldl_cons, List.foldl_cons]
      have hdyx : disjointTables y x :=
        (List.pairwise_cons.mp hd).1 x (List.mem_cons_self x l)
      have hcomm : MEquiv (processFile (processFile s y) x)
          (processFile (processFile s x) y) := processFile_comm hw hdyx
      exact foldl_processFile_mequiv hcomm
        (processFile_wf (processFile_wf hw y) x) l
  | trans h1 h2 ih1 ih2 =>
      intro hd s hw
      have hd2 := (h1.pairwise_iff (fun hxy => disjointTables_symm hxy)).mp hd
      exact mequiv_trans (ih1 hd s hw) (ih2 hd2 s hw)

theorem migState_mequiv_of_perm {l1 l2 : List MigFile} (hp : l1.Perm l2)
    (hd : l1.Pairwise disjointTables) : MEquiv (migState l1) (migState l2) :=
  foldl_processFile_perm hp hd initMigState wf_init

theorem migState_wf (l : List MigFile) : WfState (migState l) :=
  foldl_processFile_wf wf_init l

/-! ## Sorted output determined by state equivalence -/

theorem eq_of_perm_sorted_nodup (l1 : List TableOut) : ∀ (l2 : List TableOut),
    l1.Perm l2 → List.Sorted tblLe l1 → List.Sorted tblLe l2 →
    (l1.map TableOut.table_name).Nodup → l1 = l2 := by
  induction l1 with
  | nil =>
      intro l2 hp _ _ _
      rw [hp.symm.eq_nil]
  | cons a t ih =>
      intro l2 hp h1 h2 hn
      cases l2 with
      | nil => exact absurd hp.eq_nil (by simp)
      | cons b t2 =>
          by_cases hab : a = b
          · subst hab
            have htail := hp.cons_inv
            rw [ih t2 htail (List.sorted_cons.mp h1).2 (List.sorted_cons.mp h2).2
              (by rw [List.map_cons, List.nodup_cons] at hn; exact hn.2)]
          · exfalso
            have hamem : a ∈ b :: t2 := hp.subset (List.mem_cons_self a t)
            have hbmem : b ∈ a :: t := hp.symm.subset (List.mem_cons_self b t2)
            have hat2 : a ∈ t2 := by
              rcases List.mem_cons.mp hamem with hcase | hcase
              · exact absurd hcase hab
              · exact hcase
            have hbt : b ∈ t := by
              rcases List.mem_cons.mp hbmem with hcase | hcase
              · exact absurd hcase.symm hab
              · exact hcase
            have hle1 : tblLe a b := (List.sorted_cons.mp h1).1 b hbt
            have hle2 : tblLe b a := (List.sorted_cons.mp h2).1 a hat2
            have hname : b.table_name = a.table_name := le_antisymm hle2 hle1
            have hn2 : ((b :: t2).map TableOut.table_name).Nodup :=
              ((hp.map TableOut.table_name).nodup_iff).mp hn
            rw [List.map_cons, List.nodup_cons] at hn2
            exact hn2.1 (by rw [hname]; exact List.mem_map_of_mem _ hat2)

theorem mkTableOut_congr {s1 s2 : MigState} (he : MEquiv s1 s2) (hw : WfState s1)
    (p : String × List (String × String)) : mkTableOut s1 p = mkTableOut s2 p := by
  unfold mkTableOut
  rw [alookup_perm he.files p.1 hw.files, alookup_perm he.indexes p.1 hw.indexes,
      alookup_perm he.fks p.1 hw.fks]

theorem migRecords_names_nodup (l : List MigFile) :
    ((migRecords l).map TableOut.table_name).Nodup := by
  unfold migRecords
  rw [List.map_map]
  have hcong : ∀ p ∈ (migState l).table_schemas,
      (TableOut.table_name ∘ mkTableOut (migState l)) p = Prod.fst p := fun p _ => rfl
  rw [List.map_congr_left hcong]
  exact (migState_wf l).schemas

theorem parse_migrations_eq_of_mequiv {l1 l2 : List MigFile}
    (he : MEquiv (migState l1) (migState l2)) :
    parse_migrations l1 = parse_migrations l2 := by
  have hw1 := migState_wf l1
  have hperm : (migRecords l1).Perm (migRecords l2) := by
    have hrec1 : migRecords l1 =
        (migState l1).table_schemas.map (mkTableOut (migState l2)) := by
      unfold migRecords
      exact List.map_congr_left (fun p _ => mkTableOut_congr he hw1 p)
    rw [hrec1]
    unfold migRecords
    exact he.schemas.map _
  unfold parse_migrations
  refine eq_of_perm_sorted_nodup _ _ ?_ ?_ ?_ ?_
  · exact ((List.perm_insertionSort tblLe (migRecords l1)).trans hperm).trans
      (List.perm_insertionSort tblLe (migRecords l2)).symm
  · exact List.sorted_insertionSort tblLe (migRecords l1)
  · exact List.sorted_insertionSort tblLe (migRecords l2)
  · exact (((List.perm_insertionSort tblLe (migRecords l1)).map
      TableOut.table_name).nodup_iff).mpr (migRecords_names_nodup l1)

/-! ## Per-table characterization of the fold state -/

theorem migState_eq_foldl_events (files : List MigFile) :
    migState files = (eventsOf files).foldl processEvent initMigState := by
  unfold migState eventsOf
  generalize initMigState = s
  induction files generalizing s with
  | nil => rfl
  | cons f rest ih =>
      rw [List.foldl_cons, List.flatMap_cons, List.foldl_append]
      exact ih _

theorem opsOfEvents_append_hit {es : List MigEvent} {e : MigEvent} {t : String}
    (het : e.table = t) : opsOfEvents (es ++ [e]) t = opsOfEvents es t ++ e.ops := by
  unfold opsOfEvents
  rw [List.filter_append, List.flatMap_append]
  congr 1
  simp [List.filter, het]

theorem opsOfEvents_append_miss {es : List MigEvent} {e : MigEvent} {t : String}
    (het : ¬e.table = t) : opsOfEvents (es ++ [e]) t = opsOfEvents es t := by
  unfold opsOfEvents
  rw [List.filter_append]
  have : [e].filter (fun e2 => decide (e2.table = t)) = [] := by simp [List.filter, het]
  rw [this, List.append_nil]

theorem opsOfEvents_nil_of_not_any {es : List MigEvent} {t : String}
    (h : ¬es.any (fun e2 => decide (e2.table = t)) = true) : opsOfEvents es t = [] := by
  unfold opsOfEvents
  have : es.filter (fun e2 => decide (e2.table = t)) = [] := by
    rw [List.filter_eq_nil_iff]
    intro a ha hdec
    exact h (List.any_eq_true.mpr ⟨a, ha, hdec⟩)
  rw [this]
  rfl

theorem foldl_events_schemas (es : List MigEvent) (t : String) (ht : ¬t = "") :
    alookup ((es.foldl processEvent initMigState).table_schemas) t =
      if es.any (fun e2 => decide (e2.table = t)) then some (colNet (opsOfEvents es t))
      else none := by
  induction es using List.reverseRecOn with
  | nil => simp [initMigState, alookup]
  | append_singleton es e ih =>
      rw [List.foldl_append, List.foldl_cons, List.foldl_nil]
      by_cases het : e.table = t
      · have hne : ¬e.table = "" := by rw [het]; exact ht
        rw [processEvent_schemas _ e hne, het, alookup_alUpd_self, ih]
        have hany : ((es ++ [e]).any (fun e2 => decide (e2.table = t))) = true := by
          rw [List.any_append]
          simp [het]
        rw [if_pos hany, opsOfEvents_append_hit het]
        unfold colNet
        rw [List.foldl_append]
        by_cases hany2 : es.any (fun e2 => decide (e2.table = t))
        · rw [if_pos hany2, Option.getD_some]
        · rw [if_neg hany2, Option.getD_none, opsOfEvents_nil_of_not_any hany2]
          rfl
      · have hany : ((es ++ [e]).any (fun e2 => decide (e2.table = t))) =
            es.any (fun e2 => decide (e2.table = t)) := by
          rw [List.any_append]
          simp [het]
        have hops := @opsOfEvents_append_miss es e t het
        by_cases hne : e.table = ""
        · rw [processEvent_skip _ e hne, ih, hany, hops]
        · rw [processEvent_schemas _ e hne,
              alookup_alUpd_ne _ _ _ (fun hq => het hq.symm), ih, hany, hops]

theorem foldl_events_indexes (es : List MigEvent) (t : String) (ht : ¬t = "") :
    alookup ((es.foldl processEvent initMigState).table_indexes) t =
      if es.any (fun e2 => decide (e2.table = t)) then some (idxNet (opsOfEvents es t))
      else none := by
  induction es using List.reverseRecOn with
  | nil => simp [initMigState, alookup]
  | append_singleton es e ih =>
      rw [List.foldl_append, List.foldl_cons, List.foldl_nil]
      by_cases het : e.table = t
      · have hne : ¬e.table = "" := by rw [het]; exact ht
        rw [processEvent_indexes _ e hne, het, alookup_alUpd_self, ih]
        have hany : ((es ++ [e]).any (fun e2 => decide (e2.table = t))) = true := by
          rw [List.any_append]
          simp [het]
        rw [if_pos hany, opsOfEvents_append_hit het]
        unfold idxNet
        rw [List.filterMap_append]
        by_cases hany2 : es.any (fun e2 => decide (e2.table = t))
        · rw [if_pos hany2, Option.getD_some]
        · rw [if_neg hany2, Option.getD_none, opsOfEvents_nil_of_not_any hany2]
          rfl
      · have hany : ((es ++ [e]).any (fun e2 => decide (e2.table = t))) =
            es.any (fun e2 => decide (e2.table = t)) := by
          rw [List.any_append]
          simp [het]
        have hops := @opsOfEvents_append_miss es e t het
        by_cases hne : e.table = ""
        · rw [processEvent_skip _ e hne, ih, hany, hops]
        · rw [processEvent_indexes _ e hne,
              alookup_alUpd_ne _ _ _ (fun hq => het hq.symm), ih, hany, hops]

theorem foldl_events_fks (es : List MigEvent) (t : String) (ht : ¬t = "") :
    alookup ((es.foldl processEvent initMigState).table_fks) t =
      if es.any (fun e2 => decide (e2.table = t)) then some (fkNet (opsOfEvents es t))
      else none := by
  induction es using List.reverseRecOn with
  | nil => simp [initMigState, alookup]
  | append_singleton es e ih =>
      rw [List.foldl_append, List.foldl_cons, List.foldl_nil]
      by_cases het : e.table = t
      · have hne : ¬e.table = "" := by rw [het]; exact ht
        rw [processEvent_fks _ e hne, het, alookup_alUpd_self, ih]
        have hany : ((es ++ [e]).any (fun e2 => decide (e2.table = t))) = true := by
          rw [List.any_append]
          simp [het]
        rw [if_pos hany, opsOfEvents_append_hit het]
        unfold fkNet
        rw [List.filterMap_append]
        by_cases hany2 : es.any (fun e2 => decide (e2.table = t))
        · rw [if_pos hany2, Option.getD_some]
        · rw [if_neg hany2, Option.getD_none, opsOfEvents_nil_of_not_any hany2]
          rfl
      · have hany : ((es ++ [e]).any (fun e2 => decide (e2.table = t))) =
            es.any (fun e2 => decide (e2.table = t)) := by
          rw [List.any_append]
          simp [het]
        have hops := @opsOfEvents_append_miss es e t het
        by_cases hne : e.table = ""
        · rw [processEvent_skip _ e hne, ih, hany, hops]
        · rw [processEvent_fks _ e hne,
              alookup_alUpd_ne _ _ _ (fun hq => het hq.symm), ih, hany, hops]

theorem alookup_of_mem_nodup {m : List (String × α)} (hn : NodupKeys m) {p : String × α}
    (hp : p ∈ m) : alookup m p.1 = some p.2 := by
  induction m with
  | nil => cases hp
  | cons q rest ih =>
      simp only [NodupKeys, List.map_cons, List.nodup_cons] at hn
      rcases List.mem_cons.mp hp with h | h
      · subst h
        rw [alookup_cons, if_pos rfl]
      · by_cases hq : q.1 = p.1
        · exact absurd (by rw [hq]; exact List.mem_map_of_mem Prod.fst h) hn.1
        · rw [alookup_cons, if_neg hq]
          exact ih hn.2 h

/-- The per-table characterization of every emitted record: a record of the
output belongs to a non-empty table name, and its columns, indexes and
foreign keys are exactly the net effect of the operations applied to that
table across the whole ordered document list. -/
theorem mem_parse_migrations {files : List MigFile} {rec : TableOut}
    (hrec : rec ∈ parse_migrations files) :
    ¬rec.table_name = "" ∧
    rec.columns = (colNet (opsOfTable files rec.table_name)).map (fun c => ⟨c.1, c.2⟩) ∧
    rec.indexes = idxNet (opsOfTable files rec.table_name) ∧
    rec.foreign_keys = fkNet (opsOfTable files rec.table_name) := by
  have hw := migState_wf files
  have hmem : rec ∈ migRecords files :=
    (List.perm_insertionSort tblLe (migRecords files)).subset hrec
  unfold migRecords at hmem
  rcases List.mem_map.mp hmem with ⟨p, hp, hpe⟩
  have hname : rec.table_name = p.1 := by rw [← hpe]; rfl
  have ht : ¬p.1 = "" := hw.keysNe p hp
  have hlook : alookup (migState files).table_schemas p.1 = some p.2 :=
    alookup_of_mem_nodup hw.schemas hp
  rw [migState_eq_foldl_events files] at hlook
  rw [foldl_events_schemas (eventsOf files) p.1 ht] at hlook
  by_cases hany : (eventsOf files).any (fun e2 => decide (e2.table = p.1))
  · rw [if_pos hany] at hlook
    have hcols : p.2 = colNet (opsOfEvents (eventsOf files) p.1) :=
      Option.some.inj hlook.symm
    have htn : (mkTableOut (migState files) p).table_name = p.1 := rfl
    refine ⟨by rw [hname]; exact ht, ?_, ?_, ?_⟩
    · rw [← hpe, htn]
      unfold mkTableOut opsOfTable
      rw [← hcols]
    · rw [← hpe, htn]
      unfold mkTableOut opsOfTable
      dsimp only
      rw [migState_eq_foldl_events files, foldl_events_indexes (eventsOf files) p.1 ht,
        if_pos hany, Option.getD_some]
    · rw [← hpe, htn]
      unfold mkTableOut opsOfTable
      dsimp only
      rw [migState_eq_foldl_events files, foldl_events_fks (eventsOf files) p.1 ht,
        if_pos hany, Option.getD_some]
  · rw [if_neg hany] at hlook
    cases hlook

/-! ## Column absence after a drop -/

theorem dictPop_keys_subset (m : List (String × String)) (k c : String)
    (hc : c ∈ (dictPop m k).map Prod.fst) : c ∈ m.map Prod.fst := by
  induction m with
  | nil => simpa [dictPop] using hc
  | cons p rest ih =>
      by_cases hp : p.1 = k
      · rw [dictPop, if_pos hp] at hc
        exact List.mem_cons_of_mem _ (ih hc)
      · rw [dictPop, if_neg hp] at hc
        rw [List.map_cons] at hc ⊢
        rcases List.mem_cons.mp hc with h | h
        · rw [h]; exact List.mem_cons_self _ _
        · exact List.mem_cons_of_mem _ (ih h)

theorem dictPop_self_not_mem (m : List (String × String)) (c : String) :
    ¬c ∈ (dictPop m c).map Prod.fst := by
  induction m with
  | nil => simp [dictPop]
  | cons p rest ih =>
      by_cases hp : p.1 = c
      · rw [dictPop, if_pos hp]
        exact ih
      · rw [dictPop, if_neg hp, List.map_cons]
        intro hc
        rcases List.mem_cons.mp hc with h | h
        · exact hp h.symm
        · exact ih h

theorem dictInsert_not_mem {m : List (String × String)} {k c : String}
    (h : ¬c ∈ m.map Prod.fst) (hne : k ≠ c) (v : String) :
    ¬c ∈ (dictInsert m k v).map Prod.fst := by
  unfold dictInsert
  by_cases hs : (alookup m k).isSome
  · rw [if_pos hs, alSet_keys]
    exact h
  · rw [if_neg hs, List.map_append, List.map_singleton]
    intro hc
    rcases List.mem_append.mp hc with hc | hc
    · exact h hc
    · have hck : c = k := List.mem_singleton.mp hc
      exact hne hck.symm

theorem applyColOp_not_mem {sch : List (String × String)} {op : MigOp} {c : String}
    (h : ¬c ∈ sch.map Prod.fst) (hop : ¬isColumnAdd op c) :
    ¬c ∈ ((applyColOp sch op).map Prod.fst) := by
  unfold applyColOp
  cases hact : op.action
  · by_cases h1 : op.type = "index" ∨ op.type = "unique" ∨ op.type = "primary"
    · rw [if_pos h1]
      exact h
    · rw [if_neg h1]
      by_cases h2 : op.type = "foreign"
      · rw [if_pos h2]
        exact h
      · rw [if_neg h2]
        have hne : op.name ≠ c := fun hq => hop ⟨hact, hq, h1, h2⟩
        exact dictInsert_not_mem h hne _
  · intro hc
    exact h (dictPop_keys_subset sch op.name c hc)

theorem foldl_applyColOp_not_mem {c : String} {sch : List (String × String)}
    (h : ¬c ∈ sch.map Prod.fst) {ops : List MigOp}
    (hops : ∀ op ∈ ops, ¬isColumnAdd op c) :
    ¬c ∈ ((ops.foldl applyColOp sch).map Prod.fst) := by
  induction ops generalizing sch with
  | nil => exact h
  | cons op rest ih =>
      rw [List.foldl_cons]
      exact ih (applyColOp_not_mem h (hops op (List.mem_cons_self op rest)))
        (fun op2 h2 => hops op2 (List.mem_cons_of_mem op h2))

theorem idxNet_cons_drop {op : MigOp} (h : op.action = .drop) (r : List MigOp) :
    idxNet (op :: r) = idxNet r := by
  obtain ⟨act, nm, ty, rf, ot, od, ou⟩ := op
  simp only at h
  subst h
  simp [idxNet, List.filterMap_cons]

theorem fkNet_cons_drop {op : MigOp} (h : op.action = .drop) (r : List MigOp) :
    fkNet (op :: r) = fkNet r := by
  obtain ⟨act, nm, ty, rf, ot, od, ou⟩ := op
  simp only at h
  subst h
  simp [fkNet, List.filterMap_cons]

/-! ## The claims -/

/-- C1: Schema fold net effect.  For every ordered sequence of migration
documents, the reconstructed columns of each emitted table are exactly the
net effect of that table's add/drop operations applied in document order
(an add inserts or overwrites, a drop removes); a column dropped and never
re-added afterwards is absent from that table's final columns; and the
two-document `todos` scenario (doc1 creates `id` and `title`, doc2 adds
`done` and drops `title`) reconstructs to `todos` with exactly the columns
`id` then `done`, `title` absent. -/
theorem schema_fold_net_effect_c1 :
    (∀ (files : List MigFile) (rec : TableOut), rec ∈ parse_migrations files →
      rec.columns =
        (colNet (opsOfTable files rec.table_name)).map (fun c => ⟨c.1, c.2⟩)) ∧
    (∀ (files : List MigFile) (rec : TableOut) (c : String)
        (l1 l2 : List MigOp) (op : MigOp), rec ∈ parse_migrations files →
      opsOfTable files rec.table_name = l1 ++ op :: l2 →
      op.action = .drop → op.name = c →
      (∀ op2 ∈ l2, ¬isColumnAdd op2 c) →
      ∀ cr ∈ rec.columns, cr.name ≠ c) ∧
    parse_migrations [todosDoc1, todosDoc2] = [todosExpected] := by
  refine ⟨?_, ?_, ?_⟩
  · intro files rec h
    exact (mem_parse_migrations h).2.1
  · intro files rec c l1 l2 op hrec hsplit hact hname hl2 cr hcr
    have hcols := (mem_parse_migrations hrec).2.1
    have hstep : applyColOp (l1.foldl applyColOp []) op =
        dictPop (l1.foldl applyColOp []) op.name := by
      unfold applyColOp
      rw [hact]
    have habs : ¬c ∈ ((colNet (opsOfTable files rec.table_name)).map Prod.fst) := by
      rw [hsplit]
      unfold colNet
      rw [List.foldl_append, List.foldl_cons, hstep, hname]
      exact foldl_applyColOp_not_mem (dictPop_self_not_mem _ c) hl2
    rw [hcols] at hcr
    rcases List.mem_map.mp hcr with ⟨q, hq, hqe⟩
    intro hceq
    apply habs
    have hqname : cr.name = q.1 := by rw [← hqe]
    rw [← hceq, hqname]
    exact List.mem_map_of_mem Prod.fst hq
  · decide

theorem schema_fold_net_effect_c1_witness :
    todosExpected ∈ parse_migrations [todosDoc1, todosDoc2] ∧
    todosExpected.columns =
      (colNet (opsOfTable [todosDoc1, todosDoc2] todosExpected.table_name)).map
        (fun c => ⟨c.1, c.2⟩) ∧
    (∀ cr ∈ todosExpected.columns, cr.name ≠ "title") := by
  have hmem : todosExpected ∈ parse_migrations [todosDoc1, todosDoc2] := by decide
  refine ⟨hmem, schema_fold_net_effect_c1.1 _ _ hmem, ?_⟩
  exact schema_fold_net_effect_c1.2.1 [todosDoc1, todosDoc2] todosExpected "title"
    [{ action := .add, name := "title", type := "string" },
     { action := .add, name := "id", type := "id" },
     { action := .add, name := "done", type := "boolean" },
     { action := .add, name := "title", type := "dropColumn" }]
    [] { action := .drop, name := "title", type := "drop" }
    hmem (by decide) rfl rfl (by intro op2 h2; cases h2)

/-- C3: Schema fold determinism under disjoint reordering.  Any two orderings
of a set of migration documents that touch pairwise disjoint tables produce
the identical final per-table schema output. -/
theorem schema_fold_determinism_c3 :
    ∀ (l1 l2 : List MigFile), l1.Perm l2 → l1.Pairwise disjointTables →
      parse_migrations l1 = parse_migrations l2 := by
  intro l1 l2 hp hd
  exact parse_migrations_eq_of_mequiv (migState_mequiv_of_perm hp hd)

theorem schema_fold_determinism_c3_witness :
    ([todosDoc1, usersDocX].Perm [usersDocX, todosDoc1]) ∧
    [todosDoc1, usersDocX].Pairwise disjointTables ∧
    parse_migrations [todosDoc1, usersDocX] = parse_migrations [usersDocX, todosDoc1] := by
  have hp : [todosDoc1, usersDocX].Perm [usersDocX, todosDoc1] :=
    List.Perm.swap usersDocX todosDoc1 []
  have hd : [todosDoc1, usersDocX].Pairwise disjointTables := by decide
  exact ⟨hp, hd, schema_fold_determinism_c3 _ _ hp hd⟩

/-- C6: Apply-section restriction.  A migration document containing both an
apply (`function up`) and a revert (`function down`) section contributes only
the blocks of its apply section: the whole output equals the output computed
from the document reduced to its up-blocks, so no revert-only operation
affects any table; a document with no apply/revert separation is processed in
full. -/
theorem apply_section_restriction_c6 :
    (∀ (fs1 fs2 : List MigFile) (nm : String) (pre up down : List MigBlock),
      parse_migrations (fs1 ++ ⟨nm, .sections pre up down⟩ :: fs2) =
        parse_migrations (fs1 ++ ⟨nm, .whole up⟩ :: fs2)) ∧
    (∀ bs : List MigBlock, selectBlocks (.whole bs) = bs) := by
  constructor
  · intro fs1 fs2 nm pre up down
    have hpf : ∀ s : MigState,
        processFile s ⟨nm, .sections pre up down⟩ = processFile s ⟨nm, .whole up⟩ := by
      intro s
      rfl
    unfold parse_migrations migRecords migState
    rw [List.foldl_append, List.foldl_cons, List.foldl_append, List.foldl_cons, hpf]
  · intro bs
    rfl

/-- C10: Index and foreign-key records are append-only across the fold.  The
emitted `indexes` and `foreign_keys` of every table are exactly the index and
foreign-key operations recorded for it, in order, independent of any drop
operations: drops never remove an index or foreign-key record, so every such
record survives even when its column is later dropped. -/
theorem index_fk_append_only_c10 :
    (∀ (files : List MigFile) (rec : TableOut), rec ∈ parse_migrations files →
      rec.indexes = idxNet (opsOfTable files rec.table_name) ∧
      rec.foreign_keys = fkNet (opsOfTable files rec.table_name)) ∧
    (∀ (l r : List MigOp) (op : MigOp), op.action = .drop →
      idxNet (l ++ op :: r) = idxNet (l ++ r) ∧
      fkNet (l ++ op :: r) = fkNet (l ++ r)) := by
  constructor
  · intro files rec h
    exact ⟨(mem_parse_migrations h).2.2.1, (mem_parse_migrations h).2.2.2⟩
  · intro l r op hact
    constructor
    · unfold idxNet
      rw [List.filterMap_append, List.filterMap_append]
      have := idxNet_cons_drop hact r
      unfold idxNet at this
      rw [this]
    · unfold fkNet
      rw [List.filterMap_append, List.filterMap_append]
      have := fkNet_cons_drop hact r
      unfold fkNet at this
      rw [this]

theorem index_fk_append_only_c10_witness :
    usersExpected ∈ parse_migrations [usersDocX, usersDocY] ∧
    usersExpected.indexes = idxNet (opsOfTable [usersDocX, usersDocY] usersExpected.table_name) ∧
    usersExpected.indexes = [⟨"email", "unique"⟩] := by
  have hmem : usersExpected ∈ parse_migrations [usersDocX, usersDocY] := by decide
  exact ⟨hmem, (index_fk_append_only_c10.1 _ _ hmem).1, by decide⟩

/-- C2 counterexample: the scenario document (ungrouped `GET /health` plus a
group with prefix `api` and middleware `auth` containing `GET /users`) does
not reconstruct to exactly the two claimed routes: the ungrouped scan of
`_parse_route_file` also matches the declaration inside the group body, so
the reconstructor produces three routes, not two. -/
theorem route_scenario_c2_cex :
    (parseRoutesDoc c2Doc).length = 3 ∧
    parseRoutesDoc c2Doc ≠
      [⟨"GET", "/health", "HealthController@check", []⟩,
       ⟨"GET", "api/users", "UserController@index", ["auth"]⟩] := by
  exact ⟨by decide, by decide⟩

/-- C2 amended: the scenario document reconstructs to exactly three routes:
`{GET, /health, HealthController@check, []}`, then a duplicate
`{GET, /users, UserController@index, []}` contributed by the ungrouped scan
matching inside the group body (without prefix or middleware), then the
flattened `{GET, api/users, UserController@index, [auth]}`. -/
theorem route_scenario_c2_amended :
    parseRoutesDoc c2Doc =
      [⟨"GET", "/health", "HealthController@check", []⟩,
       ⟨"GET", "/users", "UserController@index", []⟩,
       ⟨"GET", "api/users", "UserController@index", ["auth"]⟩] := by
  decide

/-- C4: Route prefix join normalization.  Joining group prefix `api` with
inner URI `/users` yields exactly `api/users` (one slash at the boundary),
and joining the empty prefix with `/users` leaves it unchanged — both for the
join helper itself and through the group flattening. -/
theorem route_prefix_join_c4 :
    joinGroupUri "api" "/users" = "api/users" ∧
    joinGroupUri "" "/users" = "/users" ∧
    parse_routes_with_groups [.group "" "\"api\"" [usersMatch]] =
      [⟨"GET", "api/users", "UserController@index", []⟩] ∧
    parse_routes_with_groups [.group "" "" [usersMatch]] =
      [⟨"GET", "/users", "UserController@index", []⟩] := by
  exact ⟨by decide, by decide, by decide, by decide⟩

/-- C5: Middleware inheritance order.  For every group wrapping a route, the
flattened middleware sequence is the group's parsed middleware list followed
by the route's own, both in declared order; in particular middleware `a, b`
over a route with `c` gives `[a, b, c]`, and duplicates are preserved when
the route's own middleware equals a group entry (`[a, b, a]`). -/
theorem middleware_inheritance_c5 :
    (∀ (gmw pfxRaw : String) (m : RouteMatch),
      parse_routes_with_groups [.group gmw pfxRaw [m]] =
        [{ method := pyUpper m.verb
           uri := joinGroupUri (pyStripQuotes (pyStrip pfxRaw)) m.uri
           action := normalize_route_action m.action
           middleware := parseMwList gmw ++ parseMwList m.mwRaw }]) ∧
    (parse_routes_with_groups
        [.group "\"a\", \"b\"" "" [⟨"get", "/x", .other "handler", "\"c\""⟩]]).map
      Route.middleware = [["a", "b", "c"]] ∧
    (parse_routes_with_groups
        [.group "\"a\", \"b\"" "" [⟨"get", "/x", .other "handler", "\"a\""⟩]]).map
      Route.middleware = [["a", "b", "a"]] := by
  refine ⟨?_, by decide, by decide⟩
  intro gmw pfxRaw m
  rfl

/-- C8: Empty input yields an empty list, never an error.  A route document
with no match of either declaration shape produces the empty route list from
both scans and from their concatenation; the parse functions are total, so no
error can be raised. -/
theorem empty_route_doc_c8 :
    parse_route_file ([] : List RouteItem) = [] ∧
    parse_routes_with_groups ([] : List RouteItem) = [] ∧
    parseRoutesDoc ([] : List RouteItem) = [] :=
  ⟨rfl, rfl, rfl⟩

/-- C9: Structured generation error contract.  `generate_json` strips a
possible fenced-code-block wrapper (a json-tagged opener with its closing
delimiter, or a bare fence whose first and last lines are dropped) and then
parses: if the remainder parses, the parsed value is returned; if and only if
it does not parse, a malformed-response error carrying the first 500
characters of the offending text is raised.  The concrete equations exhibit
the stripping on a json-tagged fence, a bare fence, and plain text. -/
theorem structured_generation_c9 :
    (∀ (J : Type) (loads : String → Option J) (text : String) (v : J),
      loads (strip_code_fence text) = some v →
        generate_json J loads text = Except.ok v) ∧
    (∀ (J : Type) (loads : String → Option J) (text : String),
      loads (strip_code_fence text) = none →
        generate_json J loads text = Except.error (pyTake (strip_code_fence text) 500)) ∧
    strip_code_fence "```json\nak\n```" = "ak" ∧
    strip_code_fence "```\nbk\n```" = "bk" ∧
    strip_code_fence "plain" = "plain" := by
  refine ⟨?_, ?_, by decide, by decide, by decide⟩
  · intro J loads text v h
    unfold generate_json
    rw [h]
  · intro J loads text h
    unfold generate_json
    rw [h]

theorem structured_generation_c9_witness :
    (fun s => if s = "ak" then some 1 else none) (strip_code_fence "```json\nak\n```") =
      some 1 ∧
    generate_json Nat (fun s => if s = "ak" then some 1 else none) "```json\nak\n```" =
      Except.ok 1 ∧
    (fun _ => (none : Option Nat)) (strip_code_fence "xyz") = none ∧
    generate_json Nat (fun _ => none) "xyz" = Except.error (pyTake "xyz" 500) := by
  refine ⟨by decide, ?_, rfl, ?_⟩
  · exact structured_generation_c9.1 Nat _ "```json\nak\n```" 1 (by decide)
  · exact structured_generation_c9.2.1 Nat _ "xyz" rfl

theorem utf8_fold_ascii {bytes : List Nat} (h : ∀ b ∈ bytes, b < 128) :
    ∀ st : Utf8S, st.bad = false → st.pending = 0 →
      bytes.foldl utf8Byte st = { st with out := st.out ++ bytes } := by
  induction bytes with
  | nil =>
      intro st h1 h2
      simp
  | cons b r ih =>
      intro st h1 h2
      rw [List.foldl_cons]
      have hb : b < 128 := h b (List.mem_cons_self b r)
      have hstep : utf8Byte st b = { st with out := st.out ++ [b] } := by
        unfold utf8Byte
        rw [if_neg (by simp [h1]), if_pos h2, if_pos hb]
      rw [hstep, ih (fun x hx => h x (List.mem_cons_of_mem b hx))
        { st with out := st.out ++ [b] } h1 h2]
      simp

/-- C7 counterexample: reading a migration document is not permissive — the
byte sequence `104, 255` is not valid UTF-8, and the strict read raises a
decoding error instead of substituting the undecodable byte. -/
theorem migration_decoding_c7_cex :
    utf8DecodeStrict [104, 255] = none ∧
    readMigrationText [104, 255] = Except.error () := by
  exact ⟨rfl, rfl⟩

/-- C7 amended: `_parse_migration_file` reads migration documents with strict
UTF-8 decoding: valid (here ASCII) input is decoded as-is, while a document
with undecodable bytes makes the read raise a decoding error — unlike the
permissive substituting read the specification describes, which would map the
same input to text containing the replacement character. -/
theorem migration_decoding_c7_amended :
    (∀ bytes : List Nat, (∀ b ∈ bytes, b < 128) →
      readMigrationText bytes = Except.ok bytes) ∧
    readMigrationText [104, 255] = Except.error () ∧
    utf8DecodeReplace [104, 255] = [104, 65533] := by
  refine ⟨?_, rfl, rfl⟩
  intro bytes h
  unfold readMigrationText
  have hdec : utf8DecodeStrict bytes = some bytes := by
    unfold utf8DecodeStrict
    rw [utf8_fold_ascii h utf8Init rfl rfl]
    simp [utf8Init]
  rw [hdec]

theorem migration_decoding_c7_witness :
    (∀ b ∈ [104, 105], b < 128) ∧
    readMigrationText [104, 105] = Except.ok [104, 105] := by
  exact ⟨by decide, migration_decoding_c7_amended.1 [104, 105] (by decide)⟩

end AiSpecGen
